import Mathlib

/-!
memtask: an in-memory registry of asynchronous tasks.

A verification development over a shallow embedding of `memtask.go`.

Modelling conventions.

* `time.Time` is an integer count of nanoseconds since the zero time, so the
  zero value `time.Time{}` is `0`, `t.Add(d)` is `t + d` and `t.Before(u)` is
  `t < u`.  `time.Duration` is an integer count of nanoseconds.
* A Go `string` is a Lean `String`; Go compares strings bytewise, which on
  well-formed UTF-8 is the order of the code points, the order of `String`.
* An `error` value is modelled by the text its `Error()` method returns.
* `sync.Map` is a finite map with pairwise distinct keys (`AList`): `Load` is
  `lookup`, `Store` is `insert`, `Delete` is `erase`, `Range` visits `keys`.
* The methods have a pointer receiver `*Manager`; they are modelled on the
  pointee, returning the new pointee.  Only `Task.Store` follows a pointer that
  is kept in data, so only it is modelled on a heap of managers.
* Every reading of the clock and of the entropy source is an explicit argument.
-/

namespace Memtask

/-! ## Data model -/

abbrev Time := Int

abbrev Duration := Int

/-- The Go zero value `time.Time{}`. -/
def zeroTime : Time := 0

/-- A non-nil Go `error`, carried by the text of its `Error()` method. -/
structure GoError where
  text : String
deriving DecidableEq, Repr

/-- The method `Error()` of an `error`. -/
def GoError.Error (e : GoError) : String := e.text

/-- A value of type `interface{}`, as far as the payload `Data` needs. -/
inductive GoAny where
  | null : GoAny
  | str (s : String) : GoAny
  | int (n : Int) : GoAny
deriving DecidableEq, Repr

/-- A `*Manager`: `none` is the nil pointer, `some a` the manager at address `a`. -/
abbrev ManagerPtr := Option Nat

def TaskStatusProcessing : String := "processing"

def TaskStatusComplete : String := "complete"

def TaskStatusFailed : String := "failed"

/-- The struct `Task` (lines 26-36). -/
structure Task where
  ID : String
  Status : String
  Err : Option GoError
  ErrorMessage : String
  Started : Time
  Finished : Time
  Data : GoAny
  manager : ManagerPtr
deriving DecidableEq, Repr

/-- The Go zero value `Task{}`. -/
def Task.zero : Task :=
  { ID := "", Status := "", Err := none, ErrorMessage := "", Started := zeroTime,
    Finished := zeroTime, Data := GoAny.null, manager := none }

/-- The `sync.Map` of a manager, which only ever holds `string` keys and `Task` values. -/
abbrev SyncMap := AList (fun _ : String => Task)

/-- The struct `Manager` (lines 21-24). -/
structure Manager where
  tasks : SyncMap
  expireTime : Duration
deriving DecidableEq

/-- `NewManager` (lines 38-42): an empty map and the given expiration. -/
def NewManager (expireTime : Duration) : Manager :=
  { tasks := ∅, expireTime := expireTime }

/-! ## Registry operations -/

/-- `Manager.Store` (lines 114-116): `m.tasks.Store(task.ID, task)`. -/
def Manager.Store (m : Manager) (task : Task) : Manager :=
  { m with tasks := m.tasks.insert task.ID task }

/-- `Manager.Get` (lines 72-78): the stored record and `true`, or `Task{}` and `false`. -/
def Manager.Get (m : Manager) (ID : String) : Task × Bool :=
  match m.tasks.lookup ID with
  | none => (Task.zero, false)
  | some v => (v, true)

/-- `Manager.Delete` (lines 80-86): nothing when the id is absent, else remove it. -/
def Manager.Delete (m : Manager) (ID : String) : Manager :=
  match m.tasks.lookup ID with
  | none => m
  | some _ => { m with tasks := m.tasks.erase ID }

/-- `Task.IsFinished` (lines 122-130). -/
def Task.IsFinished (tk : Task) : Bool :=
  if tk.Status = TaskStatusComplete then true
  else if tk.Status = TaskStatusFailed then true
  else false

/-! ## Identifier generation -/

/-- What a Go panic carries: the argument of `panic`, or a nil dereference. -/
inductive GoPanic where
  | error (e : GoError) : GoPanic
  | message (s : String) : GoPanic
  | nilDereference : GoPanic
deriving DecidableEq, Repr

/-- The outcome of `rand.Read(b)` on the four-byte buffer `b` (line 136): the
buffer after the call, the count and the error it returned. -/
structure RandRead where
  b0 : Fin 256
  b1 : Fin 256
  b2 : Fin 256
  b3 : Fin 256
  count : Nat
  err : Option GoError
deriving DecidableEq, Repr

/-- The verb `%08x` on an unsigned integer: lowercase hexadecimal, padded on the
left with zeros to at least eight characters. -/
def fmtHex08 (n : Nat) : List Char :=
  List.replicate (8 - (Nat.toDigits 16 n).length) (Char.ofNat 48) ++ Nat.toDigits 16 n

/-- The verb `%x` on one byte of a byte slice: two lowercase hexadecimal digits. -/
def fmtHexByte (b : Fin 256) : List Char :=
  [Nat.digitChar (b.val / 16), Nat.digitChar (b.val % 16)]

/-- `timestampShortUUID` (lines 132-144), from the Unix time in seconds that
`time.Now().UTC().Unix()` returned and the outcome of `rand.Read`.  The conversion
`uint32(...)` of an `int64` keeps the low 32 bits. -/
def timestampShortUUID (unix : Int) (r : RandRead) : Except GoPanic String :=
  let now : Nat := (unix % 2 ^ 32).toNat
  match r.err with
  | some e => Except.error (GoPanic.error e)
  | none =>
    if r.count ≠ 4 then Except.error (GoPanic.message "not enough random bytes")
    else Except.ok (String.mk (fmtHex08 now ++
      (fmtHexByte r.b0 ++ fmtHexByte r.b1 ++ fmtHexByte r.b2 ++ fmtHexByte r.b3)))

/-! ## Submission and completion -/

/-- `Manager.Run` up to the `go` statement (lines 44-52 and 69), for the manager
at address `self`: the new pointee, the id returned, and the snapshot `task`
that the goroutine captures and hands to the work function.  `unix` and `r` are
the readings taken inside `timestampShortUUID`, `now` is `time.Now()` of line 49. -/
def Manager.Run (m : Manager) (self : Nat) (unix : Int) (r : RandRead) (now : Time) :
    Except GoPanic (Manager × String × Task) :=
  match timestampShortUUID unix r with
  | Except.error p => Except.error p
  | Except.ok id =>
    let task : Task :=
      { ID := id, Status := TaskStatusProcessing, Err := none, ErrorMessage := "",
        Started := now, Finished := zeroTime, Data := GoAny.null, manager := some self }
    Except.ok (m.Store task, id, task)

/-- The goroutine of `Manager.Run` after the work function has returned `err`
(lines 55-67): `task` is the snapshot captured at submission, `now` is
`time.Now()` of line 61.  The record is reloaded, patched and stored again. -/
def Manager.RunComplete (m : Manager) (task : Task) (err : Option GoError) (now : Time) :
    Manager :=
  match m.Get task.ID with
  | (_, false) => m
  | (task, true) =>
    let task := { task with Status := TaskStatusComplete }
    let task := { task with Finished := now }
    let task :=
      match err with
      | none => task
      | some e =>
        { task with Err := some e, ErrorMessage := e.Error, Status := TaskStatusFailed }
    m.Store task

/-! ## Enumeration with the lazy sweep -/

/-- The Go comparison `a > b` of two strings: `b` is before `a` in the
lexicographic order of their characters. -/
def stringGt (a b : String) : Prop := b.data < a.data

instance stringGt.decidable : DecidableRel stringGt :=
  fun a b => inferInstanceAs (Decidable (b.data < a.data))

/-- `sort.Slice(taskKeys, func(i, j) { return taskKeys[i] > taskKeys[j] })`
(lines 95-97).  The keys of a map are pairwise distinct and the order on strings
is total, so the sorted slice does not depend on the sorting algorithm. -/
def sortKeysDescending (taskKeys : List String) : List String :=
  taskKeys.insertionSort stringGt

/-- The loop of `Manager.GetAll` (lines 98-110) from iteration `i` on, over the
remaining sorted keys; `clock i` is what `time.Now()` returns in iteration `i`. -/
def Manager.GetAllLoop (expireTime : Duration) (clock : Nat → Time) :
    Nat → List String → SyncMap → List Task → SyncMap × List Task
  | _, [], store, tasks => (store, tasks)
  | i, key :: rest, store, tasks =>
    match store.lookup key with
    | none => Manager.GetAllLoop expireTime clock (i + 1) rest store tasks
    | some task =>
      if task.Status ≠ TaskStatusProcessing ∧ task.Finished + expireTime < clock i then
        Manager.GetAllLoop expireTime clock (i + 1) rest (store.erase task.ID) tasks
      else
        Manager.GetAllLoop expireTime clock (i + 1) rest store (tasks ++ [task])

/-- `Manager.GetAll` (lines 88-112): the new pointee and the slice returned. -/
def Manager.GetAll (m : Manager) (clock : Nat → Time) : Manager × List Task :=
  let taskKeys := m.tasks.keys
  let r := Manager.GetAllLoop m.expireTime clock 0 (sortKeysDescending taskKeys) m.tasks []
  ({ m with tasks := r.1 }, r.2)

/-! ## The record's own store, through its back-reference -/

/-- The managers on the heap, by address. -/
abbrev Heap := Nat → Option Manager

/-- `Task.Store` (lines 118-120): `tk.manager.Store(tk)`, a panic when the
back-reference is nil. -/
def Task.Store (tk : Task) (h : Heap) : Except GoPanic Heap :=
  match tk.manager with
  | none => Except.error GoPanic.nilDereference
  | some a =>
    match h a with
    | none => Except.error GoPanic.nilDereference
    | some m => Except.ok (Function.update h a (some (m.Store tk)))

/-! ## Predicates used in the statements -/

/-- Every record of the map sits under the key equal to its own `ID`.  The map is
written only by `m.tasks.Store(task.ID, task)` (line 115), so this holds in every
state of a registry. -/
def Manager.KeyIsID (m : Manager) : Prop :=
  ∀ e ∈ m.tasks.entries, e.2.ID = e.1

instance Manager.KeyIsID.decidable (m : Manager) : Decidable m.KeyIsID :=
  inferInstanceAs (Decidable (∀ e ∈ m.tasks.entries, e.2.ID = e.1))

/-- The sweep test of line 105 on a record, at clock reading `now`. -/
def Task.Swept (task : Task) (expireTime : Duration) (now : Time) : Prop :=
  task.Status ≠ TaskStatusProcessing ∧ task.Finished + expireTime < now

instance Task.Swept.decidable (task : Task) (expireTime : Duration) (now : Time) :
    Decidable (task.Swept expireTime now) :=
  inferInstanceAs (Decidable (_ ∧ _))

/-- A terminal status, as the glossary has it: complete or failed. -/
def Task.Terminal (task : Task) : Prop :=
  task.Status = TaskStatusComplete ∨ task.Status = TaskStatusFailed

instance Task.Terminal.decidable (task : Task) : Decidable task.Terminal :=
  inferInstanceAs (Decidable (_ ∨ _))

/-- The records the sweep keeps: the test of line 105 negated, as a Boolean. -/
def Task.kept (expireTime : Duration) (now : Time) (task : Task) : Bool :=
  !decide (task.Swept expireTime now)

/-! ## The identifier, as the specification words it -/

/-- The value of one lowercase hexadecimal digit, `none` for any other character. -/
def hexDigitValue (c : Char) : Option Nat :=
  if 48 ≤ c.toNat ∧ c.toNat ≤ 57 then some (c.toNat - 48)
  else if 97 ≤ c.toNat ∧ c.toNat ≤ 102 then some (c.toNat - 87)
  else none

/-- The number that a string of lowercase hexadecimal digits writes, most
significant digit first; `none` when some character is not such a digit. -/
def hexValue (cs : List Char) : Option Nat :=
  cs.foldl (fun acc c => acc.bind fun v => (hexDigitValue c).map fun d => 16 * v + d) (some 0)

/-- The specification's fixed-width hexadecimal: `n` on exactly `width` lowercase
digits, padded with zeros, most significant digit first.  It follows the
specification's words, to be compared with `fmtHex08` of the source. -/
def hexFixed : Nat → Nat → List Char
  | 0, _ => []
  | width + 1, n => hexFixed width (n / 16) ++ [Nat.digitChar (n % 16)]

/-- The sixteen lowercase hexadecimal digits. -/
def lowerHexDigits : List Char := "0123456789abcdef".data

/-! ## Executions of one registry -/

/-- One registry at address `self` together with the goroutines that `Run` has
launched: `running` holds the snapshot captured by every goroutine whose work
function has not returned yet, and `issued` records the ids `Run` has returned,
latest first. -/
structure Sys where
  self : Nat
  m : Manager
  running : List Task
  issued : List String
deriving DecidableEq

/-- The atomic steps of an execution.  `run` is a call of `Run`; `selfStore i d`
is the work function of the goroutine at position `i` setting `task.Data = d`
on the snapshot it was handed and calling `task.Store()`; `complete i err now`
is that work function returning `err`, followed by the completion step;
`getAll` and `delete` are calls of `GetAll` and `Delete`; `store` and
`taskStore` are calls of `Manager.Store` and `Task.Store` on any record. -/
inductive Step where
  | run (unix : Int) (r : RandRead) (now : Time) : Step
  | selfStore (i : Nat) (data : GoAny) : Step
  | complete (i : Nat) (err : Option GoError) (now : Time) : Step
  | getAll (clock : Nat → Time) : Step
  | delete (id : String) : Step
  | store (task : Task) : Step
  | taskStore (task : Task) : Step

/-- The heap of a system: its registry at address `self`. -/
def Sys.heap (s : Sys) : Heap :=
  fun a => if a = s.self then some s.m else none

/-- The system after `tk.Store()`; `none` when the call panics. -/
def Sys.taskStore (s : Sys) (tk : Task) : Option Sys :=
  match tk.Store s.heap with
  | Except.error _ => none
  | Except.ok h =>
    match h s.self with
    | none => none
    | some m => some { s with m := m }

/-- One step of an execution; `none` when the step panics or names a goroutine
that is not running.  A work function stores before it returns, so a goroutine
leaves `running` at its completion step. -/
def Sys.step (s : Sys) : Step → Option Sys
  | Step.run unix r now =>
    match s.m.Run s.self unix r now with
    | Except.error _ => none
    | Except.ok (m, id, task) =>
      some { s with m := m, running := s.running ++ [task], issued := id :: s.issued }
  | Step.selfStore i data =>
    match s.running[i]? with
    | none => none
    | some task => s.taskStore { task with Data := data }
  | Step.complete i err now =>
    match s.running[i]? with
    | none => none
    | some task =>
      some { s with m := s.m.RunComplete task err now, running := s.running.eraseIdx i }
  | Step.getAll clock => some { s with m := (s.m.GetAll clock).1 }
  | Step.delete id => some { s with m := s.m.Delete id }
  | Step.store task => some { s with m := s.m.Store task }
  | Step.taskStore task => s.taskStore task

/-- A sequence of steps, `none` as soon as one of them is not possible. -/
def Sys.exec (s : Sys) : List Step → Option Sys
  | [] => some s
  | st :: rest =>
    match s.step st with
    | none => none
    | some s' => s'.exec rest

/-- The empty registry `NewManager(expireTime)` at address `self`, nothing running. -/
def Sys.init (self : Nat) (expireTime : Duration) : Sys :=
  { self := self, m := NewManager expireTime, running := [], issued := [] }

/-- The steps of a task's life: `Run`, the work function's own stores, the
completion step, `GetAll` and `Delete`. -/
def Step.lifecycle : Step → Bool
  | Step.run _ _ _ => true
  | Step.selfStore _ _ => true
  | Step.complete _ _ _ => true
  | Step.getAll _ => true
  | Step.delete _ => true
  | Step.store _ => false
  | Step.taskStore _ => false

/-- The clock readings that a step writes into a record: `Started` at `Run`,
`Finished` at the completion step. -/
def Step.stamps : Step → List Time
  | Step.run _ _ now => [now]
  | Step.complete _ _ now => [now]
  | _ => []

/-- The clock readings written into records along a sequence of steps, in order. -/
def stampsOf : List Step → List Time
  | [] => []
  | st :: rest => st.stamps ++ stampsOf rest

/-- The shape of a record in its life: processing with `Finished` unset, or
terminal with `Finished` not before `Started`. -/
def Task.WellShaped (task : Task) : Prop :=
  (task.Status = TaskStatusProcessing ∧ task.Finished = zeroTime) ∨
  (task.Terminal ∧ task.Started ≤ task.Finished)

instance Task.WellShaped.decidable (task : Task) : Decidable task.WellShaped :=
  inferInstanceAs (Decidable (_ ∨ _))

/-! ## Example states -/

/-- The snapshot a work function stored with an error message attached. -/
def c1Snapshot : Task :=
  { ID := "a", Status := TaskStatusProcessing, Err := none, ErrorMessage := "disk full",
    Started := 1, Finished := zeroTime, Data := GoAny.str "raw data", manager := some 0 }

/-- A registry holding `c1Snapshot` when the work function returns. -/
def c1Registry : Manager := (NewManager 4).Store c1Snapshot

/-- A heap whose only manager is `c1Registry`, at address 0. -/
def c1Heap : Heap := fun a => if a = 0 then some c1Registry else none

/-- An entropy read that filled the buffer with de ad 0b ef. -/
def c8Read : RandRead :=
  { b0 := 0xde, b1 := 0xad, b2 := 0x0b, b3 := 0xef, count := 4, err := none }

/-- A record stored through `Manager.Store` with a status of the caller's own. -/
def c4Record : Task :=
  { ID := "q", Status := "queued", Err := none, ErrorMessage := "", Started := 1,
    Finished := zeroTime, Data := GoAny.null, manager := none }

/-- A registry with expiration 4 holding `c4Record`. -/
def c4Registry : Manager := (NewManager 4).Store c4Record

/-- A record that completed at time 5. -/
def c5Record : Task :=
  { ID := "a", Status := TaskStatusComplete, Err := none, ErrorMessage := "", Started := 1,
    Finished := 5, Data := GoAny.null, manager := some 0 }

/-- A registry with expiration 4 holding `c5Record`. -/
def c5Registry : Manager := (NewManager 4).Store c5Record

/-- A record still processing, started at time 2. -/
def c6Record : Task :=
  { ID := "b", Status := TaskStatusProcessing, Err := none, ErrorMessage := "", Started := 2,
    Finished := zeroTime, Data := GoAny.null, manager := some 0 }

/-- A record that failed at time 100. -/
def c7Record : Task :=
  { ID := "c", Status := TaskStatusFailed, Err := some ⟨"x"⟩, ErrorMessage := "x",
    Started := 3, Finished := 100, Data := GoAny.null, manager := some 0 }

/-- A registry with expiration 4 holding a complete, a processing and a failed record. -/
def c6Registry : Manager := ((c5Registry.Store c6Record).Store c7Record)

/-- An execution that uses every kind of step. -/
def c20Steps : List Step :=
  [Step.run 5 c8Read 1, Step.store c4Record, Step.taskStore c1Snapshot,
   Step.selfStore 0 (GoAny.str "raw data"), Step.getAll (fun _ => 9),
   Step.complete 0 none 9, Step.delete "q"]

/-- A task is submitted at time 1 and its work function returns nil at time 2. -/
def c12StepsA : List Step := [Step.run 5 c8Read 1, Step.complete 0 none 2]

/-- Then the registry is enumerated, a second task is submitted a second later
and its work function stores its snapshot with data attached. -/
def c12StepsB : List Step :=
  [Step.getAll (fun _ => 3), Step.run 6 c8Read 3, Step.selfStore 0 (GoAny.str "raw data")]

/-- Or else: a second task is submitted in the same second and the entropy source
returns the same four bytes. -/
def c12StepsClash : List Step := [Step.run 5 c8Read 3]

/-- The state after `c12StepsA`. -/
def c12Mid : Sys := ((Sys.init 0 4).exec c12StepsA).getD (Sys.init 0 4)

/-- The state after `c12StepsA` and `c12StepsB`. -/
def c12End : Sys := (c12Mid.exec c12StepsB).getD c12Mid

/-- The state after `c12StepsA` and `c12StepsClash`. -/
def c12Clash : Sys := (c12Mid.exec c12StepsClash).getD c12Mid

/-- The snapshot that the `Run` of `c12StepsA` hands to the work function. -/
def c12Snapshot : Task :=
  { ID := "00000005dead0bef", Status := TaskStatusProcessing, Err := none, ErrorMessage := "",
    Started := 1, Finished := zeroTime, Data := GoAny.null, manager := some 0 }

/-- A task is submitted and its work function sets `task.Status` to "failed" on
the snapshot it was handed and calls `task.Store()`. -/
def c12StepsStatus : List Step :=
  [Step.run 5 c8Read 1, Step.taskStore { c12Snapshot with Status := TaskStatusFailed }]

/-- Then that work function returns nil. -/
def c12StepsReturn : List Step := [Step.complete 0 none 2]

/-- The state after `c12StepsStatus`. -/
def c12Stored : Sys := ((Sys.init 0 4).exec c12StepsStatus).getD (Sys.init 0 4)

/-- The state after `c12StepsStatus` and `c12StepsReturn`. -/
def c12Returned : Sys := (c12Stored.exec c12StepsReturn).getD c12Stored

/-- After `c12StepsA`: a `task.Store()` of the unchanged snapshot that reaches the
registry once the completion step is over, the work function having handed the
snapshot to a goroutine of its own. -/
def c12StepsLate : List Step := [Step.taskStore c12Snapshot]

/-- The state after `c12StepsA` and `c12StepsLate`. -/
def c12Late : Sys := (c12Mid.exec c12StepsLate).getD c12Mid

/-- Two tasks in their lives: submitted, stored by the work function, completed,
with an enumeration and a deletion in between. -/
def c13Steps : List Step :=
  [Step.run 5 c8Read 1, Step.selfStore 0 (GoAny.str "raw data"), Step.run 6 c8Read 2,
   Step.complete 0 none 2, Step.getAll (fun _ => 3), Step.delete "zz",
   Step.complete 0 (some ⟨"x"⟩) 7]

/-- The state after `c13Steps`. -/
def c13End : Sys := ((Sys.init 0 4).exec c13Steps).getD (Sys.init 0 4)

/-- Three submissions in three different seconds. -/
def c14Steps : List Step := [Step.run 5 c8Read 1, Step.run 6 c8Read 2, Step.run 7 c8Read 3]

/-- The state after `c14Steps`. -/
def c14End : Sys := ((Sys.init 0 1).exec c14Steps).getD (Sys.init 0 1)

/-- Three submissions in the same second, the entropy source returning the same
four bytes each time. -/
def c14StepsClash : List Step := [Step.run 5 c8Read 1, Step.run 5 c8Read 2, Step.run 5 c8Read 3]

/-- The state after `c14StepsClash`. -/
def c14Clash : Sys := ((Sys.init 0 1).exec c14StepsClash).getD (Sys.init 0 1)

/-- Every record of the registry is under the key equal to its ID, every running
snapshot is processing with an issued id, no two running snapshots share an id,
and a stored record is processing or else terminal with its goroutine gone. -/
def Sys.Orderly (s : Sys) : Prop :=
  s.m.KeyIsID ∧
  (∀ t ∈ s.running, t.Status = TaskStatusProcessing ∧ t.ID ∈ s.issued) ∧
  (s.running.map Task.ID).Nodup ∧
  (∀ (k : String) (rec : Task), s.m.tasks.lookup k = some rec →
    k ∈ s.issued ∧
    (rec.Status = TaskStatusProcessing ∨ (rec.Terminal ∧ k ∉ s.running.map Task.ID)))

/-- The goroutine of the task with id `k` has been launched and is gone. -/
def Sys.Done (s : Sys) (k : String) : Prop :=
  k ∈ s.issued ∧ k ∉ s.running.map Task.ID

/-- Every stored record is well shaped and was started no later than `b`, and
every running snapshot is processing with `Finished` unset, started no later
than `b`. -/
def Sys.Shaped (s : Sys) (b : Time) : Prop :=
  (∀ (k : String) (rec : Task), s.m.tasks.lookup k = some rec →
    rec.WellShaped ∧ rec.Started ≤ b) ∧
  (∀ t ∈ s.running,
    t.Status = TaskStatusProcessing ∧ t.Finished = zeroTime ∧ t.Started ≤ b)

/-! ## Lemmas on the map operations -/

theorem Get_of_lookup_some {m : Manager} {k : String} {t : Task}
    (h : m.tasks.lookup k = some t) : m.Get k = (t, true) := by
  simp [Manager.Get, h]

theorem Get_of_lookup_none {m : Manager} {k : String}
    (h : m.tasks.lookup k = none) : m.Get k = (Task.zero, false) := by
  simp [Manager.Get, h]

theorem lookup_of_Get_true {m : Manager} {k : String} {t : Task}
    (h : m.Get k = (t, true)) : m.tasks.lookup k = some t := by
  unfold Manager.Get at h
  cases hl : m.tasks.lookup k with
  | none => simp [hl] at h
  | some v =>
    simp [hl] at h
    simp [h]

theorem lookup_of_Get_false {m : Manager} {k : String}
    (h : (m.Get k).2 = false) : m.tasks.lookup k = none := by
  unfold Manager.Get at h
  cases hl : m.tasks.lookup k with
  | none => rfl
  | some v => simp [hl] at h

theorem Get_Store_self (m : Manager) (task : Task) :
    (m.Store task).Get task.ID = (task, true) :=
  Get_of_lookup_some (by simp [Manager.Store])

theorem Get_Store_ne (m : Manager) (task : Task) {k : String} (h : k ≠ task.ID) :
    (m.Store task).Get k = m.Get k := by
  simp [Manager.Get, Manager.Store, AList.lookup_insert_ne h]

theorem KeyIsID.lookup {m : Manager} (hwf : m.KeyIsID) {k : String} {t : Task}
    (h : m.tasks.lookup k = some t) : t.ID = k := by
  have hmem : (⟨k, t⟩ : Sigma fun _ : String => Task) ∈ m.tasks.entries :=
    AList.mem_lookup_iff.mp h
  exact hwf _ hmem

theorem KeyIsID.of_lookup {m : Manager}
    (h : ∀ k t, m.tasks.lookup k = some t → t.ID = k) : m.KeyIsID := by
  intro e he
  exact h e.1 e.2 (AList.mem_lookup_iff.mpr he)

theorem Get_Store_at (m : Manager) (task : Task) {k : String} (h : task.ID = k) :
    (m.Store task).Get k = (task, true) := by
  subst h
  exact Get_Store_self m task

/-- What the completion step stores after a nil result, when it reloads `s`. -/
theorem RunComplete_none_eq {m : Manager} {task s : Task} (now : Time)
    (hget : m.Get task.ID = (s, true)) :
    m.RunComplete task none now =
      m.Store { s with Status := TaskStatusComplete, Finished := now } := by
  unfold Manager.RunComplete
  rw [hget]

/-- What the completion step stores after the error `e`, when it reloads `s`. -/
theorem RunComplete_some_eq {m : Manager} {task s : Task} (e : GoError) (now : Time)
    (hget : m.Get task.ID = (s, true)) :
    m.RunComplete task (some e) now =
      m.Store { s with Status := TaskStatusFailed, Finished := now, Err := some e,
                       ErrorMessage := e.Error } := by
  unfold Manager.RunComplete
  rw [hget]

/-! ## Lemmas on the sweep at one clock reading -/

theorem GetAllLoop_spec (e : Duration) (now : Time) (ks : List String) :
    ∀ (i : Nat) (store : SyncMap) (acc : List Task),
      (∀ k t, store.lookup k = some t → t.ID = k) →
      (Manager.GetAllLoop e (fun _ => now) i ks store acc).2 =
          acc ++ ks.filterMap (fun k => (store.lookup k).filter (Task.kept e now)) ∧
      ∀ k, (Manager.GetAllLoop e (fun _ => now) i ks store acc).1.lookup k =
          if k ∈ ks then (store.lookup k).filter (Task.kept e now) else store.lookup k := by
  induction ks with
  | nil =>
    intro i store acc _
    simp [Manager.GetAllLoop]
  | cons key rest ih =>
    intro i store acc hwf
    cases hl : store.lookup key with
    | none =>
      have hloop : Manager.GetAllLoop e (fun _ => now) i (key :: rest) store acc =
          Manager.GetAllLoop e (fun _ => now) (i + 1) rest store acc := by
        simp [Manager.GetAllLoop, hl]
      obtain ⟨h2, h1⟩ := ih (i + 1) store acc hwf
      rw [hloop]
      refine ⟨?_, fun k => ?_⟩
      · rw [h2]; simp [List.filterMap_cons, hl]
      · rw [h1 k]
        by_cases hk : k = key
        · subst hk; simp [hl]
        · simp [hk]
    | some task =>
      have hid : task.ID = key := hwf key task hl
      by_cases hs : task.Swept e now
      · have hloop : Manager.GetAllLoop e (fun _ => now) i (key :: rest) store acc =
            Manager.GetAllLoop e (fun _ => now) (i + 1) rest (store.erase key) acc := by
          have hs' := hs
          unfold Task.Swept at hs'
          simp only [Manager.GetAllLoop, hl, hid]
          rw [if_pos hs']
        have hwf' : ∀ k t, (store.erase key).lookup k = some t → t.ID = k := by
          intro k t hk
          by_cases hkk : k = key
          · subst hkk; simp at hk
          · rw [AList.lookup_erase_ne hkk] at hk
            exact hwf k t hk
        obtain ⟨h2, h1⟩ := ih (i + 1) (store.erase key) acc hwf'
        have hkept : Task.kept e now task = false := by simp [Task.kept, hs]
        rw [hloop]
        refine ⟨?_, fun k => ?_⟩
        · rw [h2, List.filterMap_cons]
          simp only [hl, Option.filter, hkept]
          congr 1
          apply List.filterMap_congr
          intro k _
          by_cases hkk : k = key
          · subst hkk; simp [hl, Option.filter, hkept]
          · rw [AList.lookup_erase_ne hkk]
        · rw [h1 k]
          by_cases hkk : k = key
          · subst hkk; simp [hl, Option.filter, hkept]
          · simp [hkk, AList.lookup_erase_ne hkk]
      · have hloop : Manager.GetAllLoop e (fun _ => now) i (key :: rest) store acc =
            Manager.GetAllLoop e (fun _ => now) (i + 1) rest store (acc ++ [task]) := by
          have hs' := hs
          unfold Task.Swept at hs'
          simp only [Manager.GetAllLoop, hl]
          rw [if_neg hs']
        obtain ⟨h2, h1⟩ := ih (i + 1) store (acc ++ [task]) hwf
        have hkept : Task.kept e now task = true := by simp [Task.kept, hs]
        rw [hloop]
        refine ⟨?_, fun k => ?_⟩
        · rw [h2, List.filterMap_cons]
          simp [hl, Option.filter, hkept]
        · rw [h1 k]
          by_cases hkk : k = key
          · subst hkk; simp [hl, Option.filter, hkept]
          · simp [hkk]


/-! ## Lemmas on the sorted keys -/

theorem stringGt_iff (a b : String) : stringGt a b ↔ b < a :=
  String.lt_iff_toList_lt.symm

theorem stringGt_trans {a b c : String} (hab : stringGt a b) (hbc : stringGt b c) :
    stringGt a c := by
  rw [stringGt_iff] at *
  exact lt_trans hbc hab

theorem stringGt_of_not {a b : String} (hne : a ≠ b) (h : ¬ stringGt a b) : stringGt b a := by
  rw [stringGt_iff] at *
  rcases lt_trichotomy a b with h1 | h1 | h1
  · exact h1
  · exact absurd h1 hne
  · exact absurd h1 h

theorem orderedInsert_descending (a : String) (l : List String)
    (hl : l.Pairwise stringGt) (ha : a ∉ l) :
    (l.orderedInsert stringGt a).Pairwise stringGt := by
  induction l with
  | nil => simp
  | cons b rest ih =>
    rw [List.pairwise_cons] at hl
    rw [List.mem_cons, not_or] at ha
    rw [List.orderedInsert]
    by_cases hab : stringGt a b
    · rw [if_pos hab]
      refine List.Pairwise.cons ?_ (List.Pairwise.cons hl.1 hl.2)
      intro x hx
      rcases List.mem_cons.mp hx with rfl | hx
      · exact hab
      · exact stringGt_trans hab (hl.1 x hx)
    · rw [if_neg hab]
      refine List.Pairwise.cons ?_ (ih hl.2 ha.2)
      intro x hx
      rcases (List.mem_orderedInsert stringGt).mp hx with rfl | hx
      · exact stringGt_of_not ha.1 hab
      · exact hl.1 x hx

theorem sortKeysDescending_perm (l : List String) : (sortKeysDescending l).Perm l :=
  List.perm_insertionSort stringGt l

theorem sortKeysDescending_descending (l : List String) (hl : l.Nodup) :
    (sortKeysDescending l).Pairwise stringGt := by
  induction l with
  | nil => simp [sortKeysDescending]
  | cons a rest ih =>
    rw [List.nodup_cons] at hl
    have hmem : a ∉ sortKeysDescending rest :=
      fun h => hl.1 ((sortKeysDescending_perm rest).mem_iff.mp h)
    exact orderedInsert_descending a _ (ih hl.2) hmem

/-- The sorted slice is the same whatever order `Range` visited the keys in. -/
theorem sortKeysDescending_of_perm {l₁ l₂ : List String} (hp : l₁.Perm l₂) (hn : l₁.Nodup) :
    sortKeysDescending l₁ = sortKeysDescending l₂ := by
  have h1 := sortKeysDescending_descending l₁ hn
  have h2 := sortKeysDescending_descending l₂ (hp.nodup_iff.mp hn)
  have hperm : (sortKeysDescending l₁).Perm (sortKeysDescending l₂) :=
    ((sortKeysDescending_perm l₁).trans hp).trans (sortKeysDescending_perm l₂).symm
  have hasym : ∀ a b : String, stringGt a b → stringGt b a → a = b := by
    intro a b hab hba
    rw [stringGt_iff] at hab hba
    exact absurd hab (lt_asymm hba)
  haveI : IsAntisymm String stringGt := ⟨hasym⟩
  exact List.eq_of_perm_of_sorted hperm h1 h2


/-! ## Lemmas on the sweep under an arbitrary clock -/

theorem GetAllLoop_any_clock (e : Duration) (clock : Nat → Time) (ks : List String) :
    ∀ (i : Nat) (store : SyncMap) (acc : List Task),
      (∀ k t, store.lookup k = some t → t.ID = k) →
      ∃ kept : List Task,
        (Manager.GetAllLoop e clock i ks store acc).2 = acc ++ kept ∧
        (kept.map Task.ID).Sublist ks ∧
        (∀ t ∈ kept, store.lookup t.ID = some t) ∧
        (∀ k t, store.lookup k = some t → t.Status = TaskStatusProcessing →
          (Manager.GetAllLoop e clock i ks store acc).1.lookup k = some t ∧
          (k ∈ ks → t ∈ kept)) := by
  induction ks with
  | nil =>
    intro i store acc _
    exact ⟨[], by simp [Manager.GetAllLoop], by simp, by simp,
      fun k t hk _ => ⟨by simpa [Manager.GetAllLoop] using hk, by simp⟩⟩
  | cons key rest ih =>
    intro i store acc hwf
    cases hl : store.lookup key with
    | none =>
      have hloop : Manager.GetAllLoop e clock i (key :: rest) store acc =
          Manager.GetAllLoop e clock (i + 1) rest store acc := by
        simp [Manager.GetAllLoop, hl]
      obtain ⟨kept, h2, hsub, hst, hproc⟩ := ih (i + 1) store acc hwf
      rw [hloop]
      refine ⟨kept, h2, hsub.cons key, hst, fun k t hk hp => ⟨(hproc k t hk hp).1, fun hmem => ?_⟩⟩
      rcases List.mem_cons.mp hmem with rfl | hmem
      · rw [hl] at hk; exact absurd hk (by simp)
      · exact (hproc k t hk hp).2 hmem
    | some task =>
      have hid : task.ID = key := hwf key task hl
      by_cases hs : task.Status ≠ TaskStatusProcessing ∧ task.Finished + e < clock i
      · have hloop : Manager.GetAllLoop e clock i (key :: rest) store acc =
            Manager.GetAllLoop e clock (i + 1) rest (store.erase key) acc := by
          simp only [Manager.GetAllLoop, hl, hid]
          rw [if_pos hs]
        have hsub' : ∀ k t, (store.erase key).lookup k = some t → store.lookup k = some t := by
          intro k t hk
          by_cases hkk : k = key
          · subst hkk; simp at hk
          · rwa [AList.lookup_erase_ne hkk] at hk
        obtain ⟨kept, h2, hsub, hst, hproc⟩ :=
          ih (i + 1) (store.erase key) acc (fun k t hk => hwf k t (hsub' k t hk))
        rw [hloop]
        refine ⟨kept, h2, hsub.cons key, fun t ht => hsub' _ _ (hst t ht), fun k t hk hp => ?_⟩
        have hkk : k ≠ key := by
          rintro rfl
          rw [hl] at hk
          exact hs.1 ((Option.some.inj hk) ▸ hp)
        have hk' : (store.erase key).lookup k = some t := by
          rwa [AList.lookup_erase_ne hkk]
        refine ⟨(hproc k t hk' hp).1, fun hmem => ?_⟩
        rcases List.mem_cons.mp hmem with h | h
        · exact absurd h hkk
        · exact (hproc k t hk' hp).2 h
      · have hloop : Manager.GetAllLoop e clock i (key :: rest) store acc =
            Manager.GetAllLoop e clock (i + 1) rest store (acc ++ [task]) := by
          simp only [Manager.GetAllLoop, hl]
          rw [if_neg hs]
        obtain ⟨kept, h2, hsub, hst, hproc⟩ := ih (i + 1) store (acc ++ [task]) hwf
        rw [hloop]
        refine ⟨task :: kept, by simp [h2], ?_, ?_, fun k t hk hp => ?_⟩
        · rw [List.map_cons, hid]
          exact hsub.cons₂ key
        · intro t ht
          rcases List.mem_cons.mp ht with rfl | ht
          · rw [hid]; exact hl
          · exact hst t ht
        · refine ⟨(hproc k t hk hp).1, fun hmem => ?_⟩
          rcases List.mem_cons.mp hmem with rfl | h
          · rw [hl] at hk
            exact List.mem_cons.mpr (Or.inl (Option.some.inj hk).symm)
          · exact List.mem_cons_of_mem _ ((hproc k t hk hp).2 h)

/-! ## Completion (C1, C2, C3) -/

/-- C1, as stated, fails: the id "a" is present, the work function returns nil,
and the record stored by the completion step keeps the error message "disk full"
of the reloaded snapshot instead of the empty string. -/
theorem c1_error_fields_not_cleared :
    c1Registry.KeyIsID ∧ (c1Registry.Get "a").2 = true ∧
    ¬ (((c1Registry.RunComplete { Task.zero with ID := "a" } none 9).Get "a").1.Status
          = TaskStatusComplete ∧
       ((c1Registry.RunComplete { Task.zero with ID := "a" } none 9).Get "a").1.Err = none ∧
       ((c1Registry.RunComplete { Task.zero with ID := "a" } none 9).Get "a").1.ErrorMessage
          = "") := by
  decide

/-- C1, amended: when the task's id is present with snapshot `s` and the work
function returns nil, the record stored under the id by the completion step has
Status "complete" and the Err and ErrorMessage of `s`; so they are nil and empty
whenever those of `s` are. -/
theorem RunComplete_nil (m : Manager) (task s : Task) (now : Time)
    (hwf : m.KeyIsID) (hget : m.Get task.ID = (s, true)) :
    ((m.RunComplete task none now).Get task.ID).2 = true ∧
    ((m.RunComplete task none now).Get task.ID).1.Status = TaskStatusComplete ∧
    ((m.RunComplete task none now).Get task.ID).1.Err = s.Err ∧
    ((m.RunComplete task none now).Get task.ID).1.ErrorMessage = s.ErrorMessage ∧
    (s.Err = none → s.ErrorMessage = "" →
      ((m.RunComplete task none now).Get task.ID).1.Err = none ∧
      ((m.RunComplete task none now).Get task.ID).1.ErrorMessage = "") := by
  have hid : s.ID = task.ID := KeyIsID.lookup hwf (lookup_of_Get_true hget)
  have hst : (m.Store { s with Status := TaskStatusComplete, Finished := now }).Get task.ID =
      ({ s with Status := TaskStatusComplete, Finished := now }, true) :=
    Get_Store_at m _ hid
  rw [RunComplete_none_eq now hget, hst]
  exact ⟨rfl, rfl, rfl, rfl, fun h1 h2 => ⟨h1, h2⟩⟩

theorem RunComplete_nil_witness :
    c1Registry.KeyIsID ∧
    ((c1Registry.RunComplete { Task.zero with ID := "a" } none 9).Get "a").1.Status
      = TaskStatusComplete :=
  ⟨by decide,
   (RunComplete_nil c1Registry { Task.zero with ID := "a" } c1Snapshot 9 (by decide)
      (by decide)).2.1⟩

/-- C2: when the task's id is present and the work function returns the non-nil
error `e`, the record stored under the id by the completion step has Status
"failed", Err equal to `e` and ErrorMessage equal to `e.Error()`. -/
theorem RunComplete_error (m : Manager) (task s : Task) (e : GoError) (now : Time)
    (hwf : m.KeyIsID) (hget : m.Get task.ID = (s, true)) :
    ((m.RunComplete task (some e) now).Get task.ID).2 = true ∧
    ((m.RunComplete task (some e) now).Get task.ID).1.Status = TaskStatusFailed ∧
    ((m.RunComplete task (some e) now).Get task.ID).1.Err = some e ∧
    ((m.RunComplete task (some e) now).Get task.ID).1.ErrorMessage = e.Error := by
  have hid : s.ID = task.ID := KeyIsID.lookup hwf (lookup_of_Get_true hget)
  have hst : (m.Store { s with Status := TaskStatusFailed, Finished := now, Err := some e,
                                 ErrorMessage := e.Error }).Get task.ID =
      ({ s with Status := TaskStatusFailed, Finished := now, Err := some e,
                ErrorMessage := e.Error }, true) :=
    Get_Store_at m _ hid
  rw [RunComplete_some_eq e now hget, hst]
  exact ⟨rfl, rfl, rfl, rfl⟩

theorem RunComplete_error_witness :
    c1Registry.KeyIsID ∧
    ((c1Registry.RunComplete { Task.zero with ID := "a" } (some ⟨"x"⟩) 9).Get "a").1.ErrorMessage
      = "x" :=
  ⟨by decide,
   (RunComplete_error c1Registry { Task.zero with ID := "a" } c1Snapshot ⟨"x"⟩ 9 (by decide)
      (by decide)).2.2.2⟩

/-- C3: when the snapshot `s` is stored under the task's id as the work function
returns, the record stored by the completion step has the ID, Started, Data and
back-reference of `s`: it is `s` with only Status, Finished, Err and ErrorMessage
replaced.  The record under every other id, and the expiration, are unchanged. -/
theorem RunComplete_frame (m : Manager) (task s : Task) (err : Option GoError) (now : Time)
    (hwf : m.KeyIsID) (hget : m.Get task.ID = (s, true)) :
    ((m.RunComplete task err now).Get task.ID).2 = true ∧
    ((m.RunComplete task err now).Get task.ID).1.ID = s.ID ∧
    ((m.RunComplete task err now).Get task.ID).1.Started = s.Started ∧
    ((m.RunComplete task err now).Get task.ID).1.Data = s.Data ∧
    ((m.RunComplete task err now).Get task.ID).1 =
      { s with Status := ((m.RunComplete task err now).Get task.ID).1.Status,
               Finished := ((m.RunComplete task err now).Get task.ID).1.Finished,
               Err := ((m.RunComplete task err now).Get task.ID).1.Err,
               ErrorMessage := ((m.RunComplete task err now).Get task.ID).1.ErrorMessage } ∧
    (∀ k : String, k ≠ task.ID → (m.RunComplete task err now).Get k = m.Get k) ∧
    (m.RunComplete task err now).expireTime = m.expireTime := by
  have hid : s.ID = task.ID := KeyIsID.lookup hwf (lookup_of_Get_true hget)
  cases err with
  | none =>
    have hst : (m.Store { s with Status := TaskStatusComplete, Finished := now }).Get task.ID =
        ({ s with Status := TaskStatusComplete, Finished := now }, true) :=
      Get_Store_at m _ hid
    rw [RunComplete_none_eq now hget, hst]
    refine ⟨rfl, rfl, rfl, rfl, rfl, fun k hk => ?_, rfl⟩
    exact Get_Store_ne m _ (by simpa [hid] using hk)
  | some e =>
    have hst : (m.Store { s with Status := TaskStatusFailed, Finished := now, Err := some e,
                                   ErrorMessage := e.Error }).Get task.ID =
        ({ s with Status := TaskStatusFailed, Finished := now, Err := some e,
                  ErrorMessage := e.Error }, true) :=
      Get_Store_at m _ hid
    rw [RunComplete_some_eq e now hget, hst]
    refine ⟨rfl, rfl, rfl, rfl, rfl, fun k hk => ?_, rfl⟩
    exact Get_Store_ne m _ (by simpa [hid] using hk)

theorem RunComplete_frame_witness :
    c1Registry.KeyIsID ∧
    ((c1Registry.RunComplete { Task.zero with ID := "a" } none 9).Get "a").1.Data
      = GoAny.str "raw data" :=
  ⟨by decide,
   (RunComplete_frame c1Registry { Task.zero with ID := "a" } c1Snapshot none 9 (by decide)
      (by decide)).2.2.2.1⟩

/-! ## Enumeration (C4, C5, C6, C7) -/

theorem KeyIsID.lookup_all {m : Manager} (hwf : m.KeyIsID) :
    ∀ k t, m.tasks.lookup k = some t → t.ID = k :=
  fun _ _ h => KeyIsID.lookup hwf h

theorem mem_sortKeysDescending_of_lookup {m : Manager} {k : String} {t : Task}
    (h : m.tasks.lookup k = some t) : k ∈ sortKeysDescending m.tasks.keys := by
  rw [(sortKeysDescending_perm m.tasks.keys).mem_iff, ← AList.mem_keys, ← AList.lookup_isSome, h]
  rfl

/-- The slice `GetAll` returns at clock reading `now`: the kept records, in the
order of the sorted keys. -/
theorem GetAll_result (m : Manager) (now : Time) (hwf : m.KeyIsID) :
    (m.GetAll (fun _ => now)).2 =
      (sortKeysDescending m.tasks.keys).filterMap
        (fun k => (m.tasks.lookup k).filter (Task.kept m.expireTime now)) := by
  have h := (GetAllLoop_spec m.expireTime now (sortKeysDescending m.tasks.keys) 0 m.tasks []
    (KeyIsID.lookup_all hwf)).1
  simpa [Manager.GetAll] using h

/-- The map `GetAll` leaves at clock reading `now`: the kept records. -/
theorem GetAll_lookup (m : Manager) (now : Time) (hwf : m.KeyIsID) (k : String) :
    (m.GetAll (fun _ => now)).1.tasks.lookup k =
      (m.tasks.lookup k).filter (Task.kept m.expireTime now) := by
  have h := (GetAllLoop_spec m.expireTime now (sortKeysDescending m.tasks.keys) 0 m.tasks []
    (KeyIsID.lookup_all hwf)).2 k
  have h' : (m.GetAll (fun _ => now)).1.tasks.lookup k =
      if k ∈ sortKeysDescending m.tasks.keys then
        (m.tasks.lookup k).filter (Task.kept m.expireTime now)
      else m.tasks.lookup k := h
  rw [h']
  split
  · rfl
  · rename_i hk
    cases hl : m.tasks.lookup k with
    | none => rfl
    | some t => exact absurd (mem_sortKeysDescending_of_lookup hl) hk

theorem filter_kept_eq_some {o : Option Task} {e : Duration} {now : Time} {t : Task} :
    o.filter (Task.kept e now) = some t ↔ o = some t ∧ ¬ t.Swept e now := by
  cases o with
  | none => simp [Option.filter]
  | some s =>
    by_cases hs : s.Swept e now
    · have hk : Task.kept e now s = false := by simp [Task.kept, hs]
      simp only [Option.filter, hk]
      constructor
      · intro h; simp at h
      · rintro ⟨h1, h2⟩
        exact absurd ((Option.some.inj h1) ▸ hs) h2
    · have hk : Task.kept e now s = true := by simp [Task.kept, hs]
      simp only [Option.filter, hk, if_true]
      constructor
      · intro h
        exact ⟨h, (Option.some.inj h) ▸ hs⟩
      · exact fun h => h.1

theorem mem_GetAll_iff (m : Manager) (now : Time) (hwf : m.KeyIsID) (t : Task) :
    t ∈ (m.GetAll (fun _ => now)).2 ↔
      m.tasks.lookup t.ID = some t ∧ ¬ t.Swept m.expireTime now := by
  rw [GetAll_result m now hwf, List.mem_filterMap]
  constructor
  · rintro ⟨k, _, hk⟩
    have h := filter_kept_eq_some.mp hk
    have hid : t.ID = k := KeyIsID.lookup hwf h.1
    rw [hid]
    exact h
  · intro h
    exact ⟨t.ID, mem_sortKeysDescending_of_lookup h.1, filter_kept_eq_some.mpr h⟩

theorem Terminal.not_processing {t : Task} (h : t.Terminal) :
    t.Status ≠ TaskStatusProcessing := by
  intro hp
  rcases h with h | h
  · rw [hp] at h; exact absurd h (by decide)
  · rw [hp] at h; exact absurd h (by decide)

theorem mem_GetAll_iff_Get (m : Manager) (now : Time) (hwf : m.KeyIsID) (t : Task) :
    t ∈ (m.GetAll (fun _ => now)).2 ↔
      (m.Get t.ID = (t, true) ∧ ¬ t.Swept m.expireTime now) := by
  rw [mem_GetAll_iff m now hwf t]
  constructor
  · exact fun h => ⟨Get_of_lookup_some h.1, h.2⟩
  · exact fun h => ⟨lookup_of_Get_true h.1, h.2⟩

theorem GetAll_Get_of_swept (m : Manager) (now : Time) (hwf : m.KeyIsID) {k : String}
    {t : Task} (hget : m.Get k = (t, true)) (hs : t.Swept m.expireTime now) :
    (m.GetAll (fun _ => now)).1.Get k = (Task.zero, false) := by
  have hk := GetAll_lookup m now hwf k
  rw [lookup_of_Get_true hget] at hk
  have hkept : Task.kept m.expireTime now t = false := by simp [Task.kept, hs]
  apply Get_of_lookup_none
  rw [hk]
  simp [Option.filter, hkept]

theorem GetAll_Get_of_kept (m : Manager) (now : Time) (hwf : m.KeyIsID) {k : String}
    {t : Task} (hget : m.Get k = (t, true)) (hs : ¬ t.Swept m.expireTime now) :
    (m.GetAll (fun _ => now)).1.Get k = (t, true) := by
  have hk := GetAll_lookup m now hwf k
  rw [lookup_of_Get_true hget] at hk
  have hkept : Task.kept m.expireTime now t = true := by simp [Task.kept, hs]
  apply Get_of_lookup_some
  rw [hk]
  simp [Option.filter, hkept]

/-- C4, as stated, fails: the record "q" is stored with Status "queued", which is
neither "complete" nor "failed", so it is not terminal and the claim has GetAll
return it; the test of line 105 is `Status != "processing"`, and at time 9 the
record is deleted and left out. -/
theorem c4_nonterminal_record_swept :
    c4Registry.KeyIsID ∧ c4Registry.Get "q" = (c4Record, true) ∧
    ¬ (c4Record.Terminal ∧ c4Record.Finished + c4Registry.expireTime < 9) ∧
    c4Record ∉ (c4Registry.GetAll (fun _ => 9)).2 ∧
    (c4Registry.GetAll (fun _ => 9)).1.Get "q" = (Task.zero, false) := by
  decide

/-- C4, amended: at clock reading `now`, GetAll returns exactly the stored
records that are NOT (Status other than "processing" AND Finished + expireTime
strictly before now), each exactly once; the records with Status other than
"processing" and Finished + expireTime before now are exactly the ones it
deletes, every other record stays as it was and no record appears.  For a
record whose Status is one of the three constants the test is the claim's:
terminal and Finished + expireTime before now. -/
theorem GetAll_sweep_rule (m : Manager) (now : Time) (hwf : m.KeyIsID) :
    (m.GetAll (fun _ => now)).2.Nodup ∧
    (∀ t : Task, t ∈ (m.GetAll (fun _ => now)).2 ↔
      (m.Get t.ID = (t, true) ∧ ¬ t.Swept m.expireTime now)) ∧
    (∀ (k : String) (t : Task), m.Get k = (t, true) →
      (t.Swept m.expireTime now → (m.GetAll (fun _ => now)).1.Get k = (Task.zero, false)) ∧
      (¬ t.Swept m.expireTime now → (m.GetAll (fun _ => now)).1.Get k = (t, true))) ∧
    (∀ k : String, (m.Get k).2 = false →
      (m.GetAll (fun _ => now)).1.Get k = (Task.zero, false)) ∧
    (∀ t : Task, t.Status = TaskStatusProcessing ∨ t.Terminal →
      (t.Swept m.expireTime now ↔ (t.Terminal ∧ t.Finished + m.expireTime < now))) := by
  refine ⟨?_, ?_, ?_, ?_, ?_⟩
  · rw [GetAll_result m now hwf]
    refine List.Nodup.filterMap ?_
      ((sortKeysDescending_perm m.tasks.keys).nodup_iff.mpr m.tasks.keys_nodup)
    intro a a' b hb hb'
    have h1 := KeyIsID.lookup hwf (filter_kept_eq_some.mp (Option.mem_def.mp hb)).1
    have h2 := KeyIsID.lookup hwf (filter_kept_eq_some.mp (Option.mem_def.mp hb')).1
    exact h1.symm.trans h2
  · exact fun t => mem_GetAll_iff_Get m now hwf t
  · exact fun k t hget =>
      ⟨GetAll_Get_of_swept m now hwf hget, GetAll_Get_of_kept m now hwf hget⟩
  · intro k hget
    apply Get_of_lookup_none
    rw [GetAll_lookup m now hwf k, lookup_of_Get_false hget]
    rfl
  · intro t ht
    unfold Task.Swept
    constructor
    · rintro ⟨h1, h2⟩
      rcases ht with ht | ht
      · exact absurd ht h1
      · exact ⟨ht, h2⟩
    · rintro ⟨h1, h2⟩
      exact ⟨Terminal.not_processing h1, h2⟩

theorem GetAll_sweep_rule_witness :
    c6Registry.KeyIsID ∧ (c6Registry.GetAll (fun _ => 10)).2.Nodup ∧
    (c6Registry.GetAll (fun _ => 10)).1.Get "a" = (Task.zero, false) :=
  ⟨by decide, (GetAll_sweep_rule c6Registry 10 (by decide)).1,
   ((GetAll_sweep_rule c6Registry 10 (by decide)).2.2.1 "a" c5Record (by decide)).1
     (by decide)⟩

/-- C5, as stated, fails at the boundary: the record "a" is terminal with finish
time 5 in a registry with expiration 4, and a GetAll at time 9 = 5 + 4 still
returns it and keeps it, where the claim has it left out and removed. -/
theorem c5_boundary_record_returned :
    c5Registry.KeyIsID ∧ c5Registry.Get "a" = (c5Record, true) ∧ c5Record.Terminal ∧
    (9 : Time) ≥ c5Record.Finished + c5Registry.expireTime ∧
    c5Record ∈ (c5Registry.GetAll (fun _ => 9)).2 ∧
    (c5Registry.GetAll (fun _ => 9)).1.Get "a" = (c5Record, true) := by
  decide

/-- C5, amended: for a terminal record with finish time f in a registry with
expiration e, a GetAll at time now returns the record and keeps it when
now <= f + e, and when now > f + e it leaves the record out and removes it, so
that a Get on its id afterwards returns not-found; a registry all of whose
records are terminal with f + e < now yields an empty result. -/
theorem GetAll_expiry_boundary (m : Manager) (now : Time) (t : Task) (hwf : m.KeyIsID)
    (hget : m.Get t.ID = (t, true)) (hterm : t.Terminal) :
    (now ≤ t.Finished + m.expireTime →
      t ∈ (m.GetAll (fun _ => now)).2 ∧ (m.GetAll (fun _ => now)).1.Get t.ID = (t, true)) ∧
    (t.Finished + m.expireTime < now →
      t ∉ (m.GetAll (fun _ => now)).2 ∧
      (m.GetAll (fun _ => now)).1.Get t.ID = (Task.zero, false)) ∧
    ((∀ (k : String) (s : Task), m.Get k = (s, true) →
        s.Terminal ∧ s.Finished + m.expireTime < now) →
      (m.GetAll (fun _ => now)).2 = []) := by
  have hmem := mem_GetAll_iff_Get m now hwf
  refine ⟨fun hle => ?_, fun hlt => ?_, fun hall => ?_⟩
  · have hs : ¬ t.Swept m.expireTime now := fun h => absurd h.2 (not_lt.mpr hle)
    exact ⟨(hmem t).mpr ⟨hget, hs⟩, GetAll_Get_of_kept m now hwf hget hs⟩
  · have hs : t.Swept m.expireTime now := ⟨Terminal.not_processing hterm, hlt⟩
    exact ⟨fun h => ((hmem t).mp h).2 hs, GetAll_Get_of_swept m now hwf hget hs⟩
  · apply List.eq_nil_iff_forall_not_mem.mpr
    intro s hs
    have h := (hmem s).mp hs
    have h' := hall s.ID s h.1
    exact h.2 ⟨Terminal.not_processing h'.1, h'.2⟩

theorem GetAll_expiry_boundary_witness :
    c5Registry.KeyIsID ∧ c5Registry.Get c5Record.ID = (c5Record, true) ∧ c5Record.Terminal ∧
    c5Record.Finished + c5Registry.expireTime < 10 ∧
    c5Record ∉ (c5Registry.GetAll (fun _ => 10)).2 ∧
    (c5Registry.GetAll (fun _ => 10)).1.Get c5Record.ID = (Task.zero, false) :=
  ⟨by decide, by decide, by decide, by decide,
   (GetAll_expiry_boundary c5Registry 10 c5Record (by decide) (by decide) (by decide)).2.1
     (by decide)⟩

/-- C6: whatever the expiration and whatever the clock reads in each iteration of
the loop, every stored record whose Status is "processing" is in the result of
GetAll and is still stored under its id afterwards. -/
theorem GetAll_keeps_processing (m : Manager) (clock : Nat → Time) (t : Task)
    (hwf : m.KeyIsID) (hget : m.Get t.ID = (t, true))
    (hproc : t.Status = TaskStatusProcessing) :
    t ∈ (m.GetAll clock).2 ∧ (m.GetAll clock).1.Get t.ID = (t, true) := by
  have hl := lookup_of_Get_true hget
  obtain ⟨kept, h2, _, _, hp⟩ := GetAllLoop_any_clock m.expireTime clock
    (sortKeysDescending m.tasks.keys) 0 m.tasks [] (KeyIsID.lookup_all hwf)
  obtain ⟨hlook, hmem⟩ := hp t.ID t hl hproc
  constructor
  · have hres : (m.GetAll clock).2 = [] ++ kept := h2
    rw [hres, List.nil_append]
    exact hmem (mem_sortKeysDescending_of_lookup hl)
  · exact Get_of_lookup_some hlook

theorem GetAll_keeps_processing_witness :
    c6Registry.KeyIsID ∧ c6Registry.Get c6Record.ID = (c6Record, true) ∧
    c6Record.Status = TaskStatusProcessing ∧
    c6Record ∈ (c6Registry.GetAll (fun i => 1000000 + i)).2 ∧
    (c6Registry.GetAll (fun i => 1000000 + i)).1.Get c6Record.ID = (c6Record, true) :=
  ⟨by decide, by decide, by decide,
   GetAll_keeps_processing c6Registry (fun i => 1000000 + i) c6Record (by decide) (by decide)
     (by decide)⟩

/-- C7: whatever the clock reads in each iteration of the loop, the IDs of the
records GetAll returns are in strictly descending string order: each adjacent
pair, and so each pair, has the earlier ID greater than the later one. -/
theorem GetAll_descending (m : Manager) (clock : Nat → Time) (hwf : m.KeyIsID) :
    List.Chain' (fun a b : Task => stringGt a.ID b.ID) (m.GetAll clock).2 ∧
    List.Pairwise (fun a b : Task => stringGt a.ID b.ID) (m.GetAll clock).2 ∧
    List.Pairwise (fun a b : Task => b.ID < a.ID) (m.GetAll clock).2 := by
  obtain ⟨kept, h2, hsub, _, _⟩ := GetAllLoop_any_clock m.expireTime clock
    (sortKeysDescending m.tasks.keys) 0 m.tasks [] (KeyIsID.lookup_all hwf)
  have hres : (m.GetAll clock).2 = kept := by
    have h : (m.GetAll clock).2 = [] ++ kept := h2
    rw [h, List.nil_append]
  have hsorted : (kept.map Task.ID).Pairwise stringGt :=
    (sortKeysDescending_descending m.tasks.keys m.tasks.keys_nodup).sublist hsub
  have hpair : List.Pairwise (fun a b : Task => stringGt a.ID b.ID) kept :=
    List.pairwise_map.mp hsorted
  rw [hres]
  refine ⟨List.Pairwise.chain' hpair, hpair, ?_⟩
  exact hpair.imp (fun h => (stringGt_iff _ _).mp h)

theorem GetAll_descending_witness :
    c6Registry.KeyIsID ∧
    List.Chain' (fun a b : Task => stringGt a.ID b.ID) (c6Registry.GetAll (fun _ => 9)).2 :=
  ⟨by decide, (GetAll_descending c6Registry (fun _ => 9) (by decide)).1⟩

/-! ## Submission (C8) -/

/-- C8: when the entropy read succeeds, Run returns a generated id, and right
after it (before the completion step) Get on that id finds a record with that
ID, Status "processing", Started equal to the time read, Finished the zero time,
Err nil and ErrorMessage empty; the snapshot handed to the work function is that
record, its back-reference is the registry, and Get on every other id, and the
expiration, are unchanged. -/
theorem Run_postcondition (m : Manager) (self : Nat) (unix : Int) (r : RandRead) (t : Time)
    (herr : r.err = none) (hcount : r.count = 4) :
    ∃ (id : String) (m' : Manager) (task : Task),
      timestampShortUUID unix r = Except.ok id ∧
      m.Run self unix r t = Except.ok (m', id, task) ∧
      m'.Get id = (task, true) ∧
      task.ID = id ∧ task.Status = TaskStatusProcessing ∧ task.Started = t ∧
      task.Finished = zeroTime ∧ task.Err = none ∧ task.ErrorMessage = "" ∧
      task.manager = some self ∧
      (∀ k : String, k ≠ id → m'.Get k = m.Get k) ∧
      m'.expireTime = m.expireTime := by
  have hid : ∃ id, timestampShortUUID unix r = Except.ok id := by
    simp [timestampShortUUID, herr, hcount]
  obtain ⟨id, hid⟩ := hid
  refine ⟨id, m.Store
      { ID := id, Status := TaskStatusProcessing, Err := none, ErrorMessage := "",
        Started := t, Finished := zeroTime, Data := GoAny.null, manager := some self },
    { ID := id, Status := TaskStatusProcessing, Err := none, ErrorMessage := "",
      Started := t, Finished := zeroTime, Data := GoAny.null, manager := some self },
    hid, ?_, ?_⟩
  · simp only [Manager.Run, hid]
  · exact ⟨Get_Store_self m _, rfl, rfl, rfl, rfl, rfl, rfl, rfl,
      fun k hk => Get_Store_ne m _ hk, rfl⟩

theorem Run_postcondition_witness :
    c8Read.err = none ∧ c8Read.count = 4 ∧
    ∃ (id : String) (m' : Manager) (task : Task),
      timestampShortUUID 5 c8Read = Except.ok id ∧
      c1Registry.Run 0 5 c8Read 7 = Except.ok (m', id, task) ∧
      m'.Get id = (task, true) ∧
      task.ID = id ∧ task.Status = TaskStatusProcessing ∧ task.Started = 7 ∧
      task.Finished = zeroTime ∧ task.Err = none ∧ task.ErrorMessage = "" ∧
      task.manager = some 0 ∧
      (∀ k : String, k ≠ id → m'.Get k = c1Registry.Get k) ∧
      m'.expireTime = c1Registry.expireTime :=
  ⟨rfl, rfl, Run_postcondition c1Registry 0 5 c8Read 7 rfl rfl⟩

/-! ## Store, Get and Delete (C9, C10) -/

/-- C9: after `Store(r)`, `Get(r.ID)` returns `(r, true)` whatever was stored
under `r.ID` before, and Get on every other id returns what it returned before.
Likewise `r.Store()` on a record whose back-reference is the registry at address
`a` succeeds and makes that registry the one after `Store(r)`, leaving every
other registry as it was. -/
theorem Store_Get_roundtrip (m : Manager) (r : Task) :
    (m.Store r).Get r.ID = (r, true) ∧
    (∀ k : String, k ≠ r.ID → (m.Store r).Get k = m.Get k) ∧
    (m.Store r).expireTime = m.expireTime ∧
    (∀ (h : Heap) (a : Nat), r.manager = some a → h a = some m →
      ∃ h' : Heap, r.Store h = Except.ok h' ∧ h' a = some (m.Store r) ∧
        ∀ b : Nat, b ≠ a → h' b = h b) := by
  refine ⟨Get_Store_self m r, fun k hk => Get_Store_ne m r hk, rfl, ?_⟩
  intro h a hr hm
  refine ⟨Function.update h a (some (m.Store r)), ?_, ?_, ?_⟩
  · simp only [Task.Store, hr, hm]
  · simp
  · intro b hb
    simp [Function.update, hb]

theorem Store_Get_roundtrip_witness :
    (c1Registry.Store { c1Snapshot with Data := GoAny.int 3 }).Get "a" =
      ({ c1Snapshot with Data := GoAny.int 3 }, true) ∧
    ∃ h' : Heap,
      Task.Store { c1Snapshot with Data := GoAny.int 3 } c1Heap = Except.ok h' ∧
      h' 0 = some (c1Registry.Store { c1Snapshot with Data := GoAny.int 3 }) ∧
      ∀ b : Nat, b ≠ 0 → h' b = c1Heap b :=
  ⟨(Store_Get_roundtrip c1Registry { c1Snapshot with Data := GoAny.int 3 }).1,
   (Store_Get_roundtrip c1Registry { c1Snapshot with Data := GoAny.int 3 }).2.2.2
     c1Heap 0 rfl rfl⟩

/-- C10: after `Delete(id)`, `Get(id)` returns the zero record and `false`, Get on
every other id returns what it returned before, and when the id was not present
the registry is unchanged. -/
theorem Delete_Get (m : Manager) (id : String) :
    (m.Delete id).Get id = (Task.zero, false) ∧
    (∀ k : String, k ≠ id → (m.Delete id).Get k = m.Get k) ∧
    ((m.Get id).2 = false → m.Delete id = m) ∧
    (m.Delete id).expireTime = m.expireTime := by
  unfold Manager.Delete
  cases hl : m.tasks.lookup id with
  | none =>
    refine ⟨Get_of_lookup_none hl, fun k _ => rfl, fun _ => rfl, rfl⟩
  | some v =>
    refine ⟨Get_of_lookup_none (AList.lookup_erase id m.tasks), fun k hk => ?_, fun hf => ?_, rfl⟩
    · simp [Manager.Get, AList.lookup_erase_ne hk]
    · rw [lookup_of_Get_false hf] at hl
      exact absurd hl (by simp)

theorem Delete_Get_witness :
    (c1Registry.Get "b").2 = false ∧ c1Registry.Delete "b" = c1Registry ∧
    (c1Registry.Delete "a").Get "a" = (Task.zero, false) :=
  ⟨by decide, (Delete_Get c1Registry "b").2.2.1 (by decide), (Delete_Get c1Registry "a").1⟩

/-! ## Abandoned completion (C11) -/

/-- C11: when the task's id is not present as the work function returns, the
completion step leaves the registry as it is, whether the work function returned
nil or an error; in particular the id is still not found afterwards. -/
theorem RunComplete_abandoned (m : Manager) (task : Task) (err : Option GoError) (now : Time)
    (habsent : (m.Get task.ID).2 = false) :
    m.RunComplete task err now = m ∧
    (m.RunComplete task err now).Get task.ID = (Task.zero, false) := by
  have hget : m.Get task.ID = (Task.zero, false) :=
    Get_of_lookup_none (lookup_of_Get_false habsent)
  have h : m.RunComplete task err now = m := by
    unfold Manager.RunComplete
    rw [hget]
  rw [h]
  exact ⟨rfl, hget⟩

theorem RunComplete_abandoned_witness :
    (c1Registry.Get c6Record.ID).2 = false ∧
    c1Registry.RunComplete c6Record (some ⟨"x"⟩) 9 = c1Registry ∧
    (c1Registry.RunComplete c6Record (some ⟨"x"⟩) 9).Get c6Record.ID = (Task.zero, false) :=
  ⟨by decide, RunComplete_abandoned c1Registry c6Record (some ⟨"x"⟩) 9 (by decide)⟩

/-! ## IsFinished (C15) -/

/-- C15: `IsFinished()` is true if and only if Status is "complete" or Status is
"failed"; in particular it is false for Status "processing". -/
theorem IsFinished_iff (tk : Task) :
    (tk.IsFinished = true ↔
      (tk.Status = TaskStatusComplete ∨ tk.Status = TaskStatusFailed)) ∧
    (tk.Status = TaskStatusProcessing → tk.IsFinished = false) := by
  unfold Task.IsFinished
  constructor
  · by_cases h1 : tk.Status = TaskStatusComplete
    · simp [h1]
    · by_cases h2 : tk.Status = TaskStatusFailed
      · simp [h2]
      · simp [h1, h2]
  · intro hp
    have h1 : tk.Status ≠ TaskStatusComplete := by rw [hp]; decide
    have h2 : tk.Status ≠ TaskStatusFailed := by rw [hp]; decide
    simp [h1, h2]

theorem IsFinished_iff_witness :
    c6Record.Status = TaskStatusProcessing ∧ c6Record.IsFinished = false ∧
    (c5Record.IsFinished = true ↔
      (c5Record.Status = TaskStatusComplete ∨ c5Record.Status = TaskStatusFailed)) :=
  ⟨by decide, (IsFinished_iff c6Record).2 (by decide), (IsFinished_iff c5Record).1⟩

/-! ## Lemmas on hexadecimal digits -/

theorem digitChar_lowerHex {d : Nat} (h : d < 16) : Nat.digitChar d ∈ lowerHexDigits := by
  interval_cases d <;> decide

theorem hexDigitValue_digitChar {d : Nat} (h : d < 16) :
    hexDigitValue (Nat.digitChar d) = some d := by
  interval_cases d <;> decide

theorem digitChar_lt {d₁ d₂ : Nat} (h : d₁ < d₂) (h₂ : d₂ < 16) :
    Nat.digitChar d₁ < Nat.digitChar d₂ := by
  interval_cases d₂ <;> interval_cases d₁ <;> decide

theorem length_hexFixed (w n : Nat) : (hexFixed w n).length = w := by
  induction w generalizing n with
  | zero => rfl
  | succ w ih => simp [hexFixed, ih]

theorem hexFixed_lowerHex (w n : Nat) : ∀ c ∈ hexFixed w n, c ∈ lowerHexDigits := by
  induction w generalizing n with
  | zero => simp [hexFixed]
  | succ w ih =>
    intro c hc
    simp only [hexFixed, List.mem_append, List.mem_singleton] at hc
    rcases hc with hc | rfl
    · exact ih _ c hc
    · exact digitChar_lowerHex (Nat.mod_lt _ (by norm_num))

theorem hexFixed_zero (w : Nat) : hexFixed w 0 = List.replicate w (Char.ofNat 48) := by
  induction w with
  | zero => rfl
  | succ w ih =>
    simp only [hexFixed, Nat.zero_div, Nat.zero_mod, ih]
    rw [List.replicate_succ']
    rfl

theorem hexValue_append_singleton (cs : List Char) (c : Char) :
    hexValue (cs ++ [c]) =
      (hexValue cs).bind fun v => (hexDigitValue c).map fun d => 16 * v + d := by
  simp [hexValue, List.foldl_append]

/-- Reading back the fixed-width hexadecimal of `n` gives `n` modulo `16 ^ w`. -/
theorem hexValue_hexFixed (w n : Nat) : hexValue (hexFixed w n) = some (n % 16 ^ w) := by
  induction w generalizing n with
  | zero => simp [hexFixed, hexValue, Nat.mod_one]
  | succ w ih =>
    rw [hexFixed, hexValue_append_singleton, ih,
      hexDigitValue_digitChar (Nat.mod_lt _ (by norm_num))]
    simp only [Option.some_bind, Option.map_some']
    congr 1
    rw [pow_succ, Nat.mul_comm (16 ^ w) 16, Nat.mod_mul]
    omega

/-! ## Lemmas on the lexicographic order of characters -/

theorem charList_lt_append_of_length_eq {l₁ l₂ : List Char} (hlt : l₁ < l₂)
    (hlen : l₁.length = l₂.length) (a b : List Char) : l₁ ++ a < l₂ ++ b := by
  induction hlt with
  | nil => simp at hlen
  | cons _ ih => exact List.Lex.cons (ih (by simpa using hlen))
  | rel h => exact List.Lex.rel h

theorem charList_append_lt_append_left (l : List Char) {a b : List Char} (h : a < b) :
    l ++ a < l ++ b := by
  induction l with
  | nil => exact h
  | cons c l ih => exact List.Lex.cons ih

/-- The fixed-width hexadecimal is monotone: a smaller number has the smaller
digits in the lexicographic order. -/
theorem hexFixed_lt (w : Nat) : ∀ {n₁ n₂ : Nat}, n₁ < n₂ → n₂ < 16 ^ w →
    hexFixed w n₁ < hexFixed w n₂ := by
  induction w with
  | zero =>
    intro n₁ n₂ h h₂
    simp at h₂
    omega
  | succ w ih =>
    intro n₁ n₂ h h₂
    rw [hexFixed, hexFixed]
    rw [pow_succ] at h₂
    rcases Nat.lt_or_ge (n₁ / 16) (n₂ / 16) with hq | hq
    · have hq2 : n₂ / 16 < 16 ^ w := by
        apply Nat.div_lt_of_lt_mul
        rw [Nat.mul_comm]
        exact h₂
      exact charList_lt_append_of_length_eq (ih hq hq2)
        (by rw [length_hexFixed, length_hexFixed]) _ _
    · have heq : n₁ / 16 = n₂ / 16 := by omega
      have hr : n₁ % 16 < n₂ % 16 := by omega
      rw [heq]
      apply charList_append_lt_append_left
      exact List.Lex.rel (digitChar_lt hr (Nat.mod_lt _ (by norm_num)))

/-! ## Lemmas on the formatting verbs -/

theorem toDigitsCore_append (b : Nat) : ∀ (fuel n : Nat) (ds : List Char),
    Nat.toDigitsCore b fuel n ds = Nat.toDigitsCore b fuel n [] ++ ds := by
  intro fuel
  induction fuel with
  | zero => intro n ds; simp [Nat.toDigitsCore]
  | succ fuel ih =>
    intro n ds
    simp only [Nat.toDigitsCore]
    split
    · simp
    · rw [ih (n / b) (Nat.digitChar (n % b) :: ds), ih (n / b) [Nat.digitChar (n % b)]]
      simp

/-- With enough fuel, the digits that `Nat.toDigitsCore` produces, padded with
zeros to `w` characters, are the fixed-width hexadecimal. -/
theorem pad_toDigitsCore (fuel : Nat) : ∀ (n w : Nat), n < 16 ^ fuel → n < 16 ^ w → 0 < w →
    (Nat.toDigitsCore 16 fuel n []).length ≤ w ∧
    List.replicate (w - (Nat.toDigitsCore 16 fuel n []).length) (Char.ofNat 48) ++
      Nat.toDigitsCore 16 fuel n [] = hexFixed w n := by
  induction fuel with
  | zero =>
    intro n w h _ hw
    have hn : n = 0 := by simpa using h
    subst hn
    simp [Nat.toDigitsCore, hexFixed_zero]
  | succ fuel ih =>
    intro n w hf hn hw
    obtain ⟨w, rfl⟩ : ∃ v, w = v + 1 := ⟨w - 1, by omega⟩
    simp only [Nat.toDigitsCore]
    by_cases hq : n / 16 = 0
    · rw [if_pos hq]
      simp only [List.length_singleton, Nat.add_sub_cancel, hexFixed, hq, hexFixed_zero]
      exact ⟨by omega, trivial⟩
    · rw [if_neg hq, toDigitsCore_append]
      have hw' : 0 < w := by
        rcases Nat.eq_zero_or_pos w with h0 | h0
        · subst h0
          simp at hn
          omega
        · exact h0
      have hf' : n / 16 < 16 ^ fuel := by
        apply Nat.div_lt_of_lt_mul
        rw [pow_succ, Nat.mul_comm] at hf
        exact hf
      have hn' : n / 16 < 16 ^ w := by
        apply Nat.div_lt_of_lt_mul
        rw [pow_succ, Nat.mul_comm] at hn
        exact hn
      obtain ⟨hlen, hpad⟩ := ih (n / 16) w hf' hn' hw'
      refine ⟨by simpa using hlen, ?_⟩
      rw [hexFixed, ← hpad, List.length_append, List.length_singleton, Nat.add_sub_add_right,
        List.append_assoc]

/-- On a 32-bit number the verb `%08x` prints the fixed-width hexadecimal on
eight digits. -/
theorem fmtHex08_eq_hexFixed {n : Nat} (h : n < 2 ^ 32) : fmtHex08 n = hexFixed 8 n := by
  have hfuel : n < 16 ^ (n + 1) := by
    calc n < 2 ^ n := Nat.lt_two_pow n
      _ ≤ 16 ^ n := Nat.pow_le_pow_left (by norm_num) n
      _ ≤ 16 ^ (n + 1) := Nat.pow_le_pow_right (by norm_num) (Nat.le_succ n)
  exact (pad_toDigitsCore (n + 1) n 8 hfuel (by norm_num at h ⊢; exact h) (by norm_num)).2

theorem fmtHexByte_eq_hexFixed (b : Fin 256) : fmtHexByte b = hexFixed 2 b.val := by
  have h : b.val / 16 % 16 = b.val / 16 := Nat.mod_eq_of_lt (by omega)
  simp [fmtHexByte, hexFixed, h]

theorem toNat_emod_lt (unix : Int) : (unix % 2 ^ 32).toNat < 2 ^ 32 := by
  have h1 : 0 ≤ unix % 2 ^ 32 := Int.emod_nonneg _ (by norm_num)
  have h2 : unix % 2 ^ 32 < 2 ^ 32 := Int.emod_lt_of_pos _ (by norm_num)
  omega

/-- The five segments of an id: eight characters, then four pairs. -/
theorem id_segments (a b c d e : List Char) (ha : a.length = 8) (hb : b.length = 2)
    (hc : c.length = 2) (hd : d.length = 2) (he : e.length = 2) :
    (a ++ (b ++ c ++ d ++ e)).take 8 = a ∧
    (a ++ (b ++ c ++ d ++ e)).drop 8 = b ++ c ++ d ++ e ∧
    ((a ++ (b ++ c ++ d ++ e)).drop 8).take 2 = b ∧
    ((a ++ (b ++ c ++ d ++ e)).drop 10).take 2 = c ∧
    ((a ++ (b ++ c ++ d ++ e)).drop 12).take 2 = d ∧
    ((a ++ (b ++ c ++ d ++ e)).drop 14).take 2 = e := by
  have h1 : ∀ n, 8 ≤ n → a.drop n = [] := fun n hn => List.drop_eq_nil_of_le (by omega)
  have h2 : ∀ n, 2 ≤ n → b.drop n = [] := fun n hn => List.drop_eq_nil_of_le (by omega)
  have h3 : ∀ n, 2 ≤ n → c.drop n = [] := fun n hn => List.drop_eq_nil_of_le (by omega)
  have h4 : ∀ n, 2 ≤ n → d.drop n = [] := fun n hn => List.drop_eq_nil_of_le (by omega)
  have t1 : a.take 8 = a := List.take_of_length_le (by omega)
  have t2 : b.take 2 = b := List.take_of_length_le (by omega)
  have t3 : c.take 2 = c := List.take_of_length_le (by omega)
  have t4 : d.take 2 = d := List.take_of_length_le (by omega)
  have t5 : e.take 2 = e := List.take_of_length_le (by omega)
  simp [List.drop_append_eq_append_drop, List.take_append_eq_append_take, ha, hb, hc, hd, he,
    h1, h2, h3, h4, t1, t2, t3, t4, t5]

/-- The id of a successful entropy read, character by character. -/
theorem timestampShortUUID_ok (unix : Int) (r : RandRead) (herr : r.err = none)
    (hcount : r.count = 4) :
    timestampShortUUID unix r = Except.ok (String.mk (hexFixed 8 (unix % 2 ^ 32).toNat ++
      (hexFixed 2 r.b0.val ++ hexFixed 2 r.b1.val ++ hexFixed 2 r.b2.val ++
        hexFixed 2 r.b3.val))) := by
  simp only [timestampShortUUID, herr, hcount, ne_eq, not_true_eq_false, if_false,
    fmtHex08_eq_hexFixed (toNat_emod_lt unix), fmtHexByte_eq_hexFixed]

/-- In a list sorted by an asymmetric relation, of two members the greater one
comes first. -/
theorem sublist_pair_of_pairwise {α : Type} {R : α → α → Prop}
    (hasymm : ∀ a b, R a b → ¬ R b a) :
    ∀ {l : List α}, l.Pairwise R → ∀ {x y : α}, x ∈ l → y ∈ l → R x y →
      List.Sublist [x, y] l := by
  intro l
  induction l with
  | nil => intro _ x y hx; simp at hx
  | cons h tl ih =>
    intro hp x y hx hy hxy
    rw [List.pairwise_cons] at hp
    rcases List.mem_cons.mp hx with hxh | hxt
    · rcases List.mem_cons.mp hy with hyh | hyt
      · rw [hxh, hyh] at hxy
        exact absurd hxy (hasymm _ _ hxy)
      · rw [hxh]
        exact List.Sublist.cons₂ _ (List.singleton_sublist.mpr hyt)
    · rcases List.mem_cons.mp hy with hyh | hyt
      · rw [hyh] at hxy
        exact absurd (hp.1 x hxt) (hasymm _ _ hxy)
      · exact List.Sublist.cons _ (ih hp.2 hxt hyt hxy)

theorem stringGt_asymm (a b : String) (h : stringGt a b) : ¬ stringGt b a := by
  rw [stringGt_iff] at *
  exact lt_asymm h

/-- The records that `GetAll` returns are sorted by descending ID. -/
theorem GetAll_pairwise (m : Manager) (clock : Nat → Time) (hwf : m.KeyIsID) :
    List.Pairwise (fun a b : Task => stringGt a.ID b.ID) (m.GetAll clock).2 := by
  obtain ⟨kept, h2, hsub, _, _⟩ := GetAllLoop_any_clock m.expireTime clock
    (sortKeysDescending m.tasks.keys) 0 m.tasks [] (fun _ _ h => KeyIsID.lookup hwf h)
  have hres : (m.GetAll clock).2 = [] ++ kept := h2
  rw [hres, List.nil_append]
  exact List.pairwise_map.mp
    ((sortKeysDescending_descending m.tasks.keys m.tasks.keys_nodup).sublist hsub)

/-! ## Identifier format and order (C16, C18) -/

/-- C16: for every Unix time in seconds and every four random bytes read without
error, the generated id is exactly 16 lowercase hexadecimal characters; the
first 8 are the zero-padded hexadecimal of the timestamp reduced modulo 2^32 and
read back as that number; the last 8 are the two-digit hexadecimal of the four
bytes in order, each pair reading back as its byte; and the id is determined by
the timestamp and the bytes alone. -/
theorem timestampShortUUID_format (unix : Int) (r : RandRead) (herr : r.err = none)
    (hcount : r.count = 4) :
    ∃ id : String, timestampShortUUID unix r = Except.ok id ∧
      id.length = 16 ∧
      (∀ c ∈ id.data, c ∈ lowerHexDigits) ∧
      id.data.take 8 = hexFixed 8 (unix % 2 ^ 32).toNat ∧
      hexValue (id.data.take 8) = some (unix % 2 ^ 32).toNat ∧
      id.data.drop 8 = hexFixed 2 r.b0.val ++ hexFixed 2 r.b1.val ++ hexFixed 2 r.b2.val ++
        hexFixed 2 r.b3.val ∧
      hexValue ((id.data.drop 8).take 2) = some r.b0.val ∧
      hexValue ((id.data.drop 10).take 2) = some r.b1.val ∧
      hexValue ((id.data.drop 12).take 2) = some r.b2.val ∧
      hexValue ((id.data.drop 14).take 2) = some r.b3.val ∧
      (∀ r' : RandRead, r'.err = none → r'.count = 4 → r'.b0 = r.b0 → r'.b1 = r.b1 →
        r'.b2 = r.b2 → r'.b3 = r.b3 → timestampShortUUID unix r' = Except.ok id) := by
  obtain ⟨s1, s2, s3, s4, s5, s6⟩ := id_segments (hexFixed 8 (unix % 2 ^ 32).toNat)
    (hexFixed 2 r.b0.val) (hexFixed 2 r.b1.val) (hexFixed 2 r.b2.val) (hexFixed 2 r.b3.val)
    (length_hexFixed _ _) (length_hexFixed _ _) (length_hexFixed _ _) (length_hexFixed _ _)
    (length_hexFixed _ _)
  have hb : ∀ b : Fin 256, hexValue (hexFixed 2 b.val) = some b.val := by
    intro b
    rw [hexValue_hexFixed]
    exact congrArg some (Nat.mod_eq_of_lt b.isLt)
  refine ⟨_, timestampShortUUID_ok unix r herr hcount, ?_, ?_, ?_, ?_, ?_, ?_, ?_, ?_, ?_, ?_⟩
  · simp [String.length, length_hexFixed]
  · intro c hc
    simp only [List.mem_append] at hc
    rcases hc with hc | ((hc | hc) | hc) | hc <;> exact hexFixed_lowerHex _ _ c hc
  · exact s1
  · show hexValue (List.take 8 _) = _
    rw [s1, hexValue_hexFixed]
    exact congrArg some (Nat.mod_eq_of_lt (toNat_emod_lt unix))
  · exact s2
  · show hexValue (List.take 2 (List.drop 8 _)) = _
    rw [s3, hb]
  · show hexValue (List.take 2 (List.drop 10 _)) = _
    rw [s4, hb]
  · show hexValue (List.take 2 (List.drop 12 _)) = _
    rw [s5, hb]
  · show hexValue (List.take 2 (List.drop 14 _)) = _
    rw [s6, hb]
  · intro r' he hc h0 h1 h2 h3
    rw [timestampShortUUID_ok unix r' he hc, h0, h1, h2, h3]

theorem timestampShortUUID_format_witness :
    c8Read.err = none ∧ c8Read.count = 4 ∧
    ∃ id : String, timestampShortUUID 1700000000 c8Read = Except.ok id ∧ id.length = 16 ∧
      hexValue (id.data.take 8) = some ((1700000000 : Int) % 2 ^ 32).toNat :=
  ⟨rfl, rfl,
   (timestampShortUUID_format 1700000000 c8Read rfl rfl).imp
     fun _ h => ⟨h.1, h.2.1, h.2.2.2.2.1⟩⟩

/-- C18: for timestamps t1 < t2, both in [0, 2^32), and any two successful
entropy reads, the id generated from t1 is strictly before the id generated from
t2 in string order; hence in every GetAll result a record whose id was generated
in the later second comes before a record whose id was generated in the earlier
second. -/
theorem timestampShortUUID_order (t1 t2 : Int) (r1 r2 : RandRead)
    (h0 : 0 ≤ t1) (hlt : t1 < t2) (h32 : t2 < 2 ^ 32)
    (he1 : r1.err = none) (hc1 : r1.count = 4) (he2 : r2.err = none) (hc2 : r2.count = 4) :
    ∃ id1 id2 : String,
      timestampShortUUID t1 r1 = Except.ok id1 ∧ timestampShortUUID t2 r2 = Except.ok id2 ∧
      id1 < id2 ∧ stringGt id2 id1 ∧
      ∀ (m : Manager) (clock : Nat → Time) (x y : Task), m.KeyIsID →
        x ∈ (m.GetAll clock).2 → y ∈ (m.GetAll clock).2 → x.ID = id2 → y.ID = id1 →
        List.Sublist [x, y] (m.GetAll clock).2 := by
  have hn1 : (t1 % 2 ^ 32).toNat < (t2 % 2 ^ 32).toNat := by
    rw [Int.emod_eq_of_lt h0 (by omega), Int.emod_eq_of_lt (by omega) h32]
    omega
  have hgt : stringGt
      (String.mk (hexFixed 8 (t2 % 2 ^ 32).toNat ++
        (hexFixed 2 r2.b0.val ++ hexFixed 2 r2.b1.val ++ hexFixed 2 r2.b2.val ++
          hexFixed 2 r2.b3.val)))
      (String.mk (hexFixed 8 (t1 % 2 ^ 32).toNat ++
        (hexFixed 2 r1.b0.val ++ hexFixed 2 r1.b1.val ++ hexFixed 2 r1.b2.val ++
          hexFixed 2 r1.b3.val))) :=
    charList_lt_append_of_length_eq (hexFixed_lt 8 hn1 (toNat_emod_lt t2))
      (by rw [length_hexFixed, length_hexFixed]) _ _
  refine ⟨_, _, timestampShortUUID_ok t1 r1 he1 hc1, timestampShortUUID_ok t2 r2 he2 hc2,
    (stringGt_iff _ _).mp hgt, hgt, ?_⟩
  intro m clock x y hwf hx hy hxid hyid
  refine sublist_pair_of_pairwise (fun a b h => stringGt_asymm _ _ h)
    (GetAll_pairwise m clock hwf) hx hy ?_
  show stringGt x.ID y.ID
  rw [hxid, hyid]
  exact hgt

theorem timestampShortUUID_order_witness :
    (0 : Int) ≤ 5 ∧ (5 : Int) < 6 ∧ (6 : Int) < 2 ^ 32 ∧
    ∃ id1 id2 : String,
      timestampShortUUID 5 c8Read = Except.ok id1 ∧ timestampShortUUID 6 c8Read = Except.ok id2 ∧
      id1 < id2 ∧ stringGt id2 id1 ∧
      ∀ (m : Manager) (clock : Nat → Time) (x y : Task), m.KeyIsID →
        x ∈ (m.GetAll clock).2 → y ∈ (m.GetAll clock).2 → x.ID = id2 → y.ID = id1 →
        List.Sublist [x, y] (m.GetAll clock).2 :=
  ⟨by decide, by decide, by decide,
   timestampShortUUID_order 5 6 c8Read c8Read (by decide) (by decide) (by decide) rfl rfl rfl rfl⟩

/-! ## A second enumeration (C19) -/

/-- When no stored record passes the sweep test, the loop deletes nothing. -/
theorem GetAllLoop_no_sweep (e : Duration) (now : Time) (ks : List String) :
    ∀ (i : Nat) (store : SyncMap) (acc : List Task),
      (∀ k t, store.lookup k = some t → ¬ t.Swept e now) →
      (Manager.GetAllLoop e (fun _ => now) i ks store acc).1 = store := by
  induction ks with
  | nil => intro i store acc _; rfl
  | cons key rest ih =>
    intro i store acc hns
    cases hl : store.lookup key with
    | none =>
      have hloop : Manager.GetAllLoop e (fun _ => now) i (key :: rest) store acc =
          Manager.GetAllLoop e (fun _ => now) (i + 1) rest store acc := by
        simp [Manager.GetAllLoop, hl]
      rw [hloop]
      exact ih (i + 1) store acc hns
    | some task =>
      have hs : ¬ (task.Status ≠ TaskStatusProcessing ∧ task.Finished + e < now) :=
        hns key task hl
      have hloop : Manager.GetAllLoop e (fun _ => now) i (key :: rest) store acc =
          Manager.GetAllLoop e (fun _ => now) (i + 1) rest store (acc ++ [task]) := by
        simp only [Manager.GetAllLoop, hl]
        rw [if_neg hs]
      rw [hloop]
      exact ih (i + 1) store (acc ++ [task]) hns

/-- `GetAll` keeps every record under the key equal to its ID. -/
theorem GetAll_KeyIsID (m : Manager) (now : Time) (hwf : m.KeyIsID) :
    (m.GetAll (fun _ => now)).1.KeyIsID := by
  apply KeyIsID.of_lookup
  intro k t hk
  rw [GetAll_lookup m now hwf k] at hk
  exact KeyIsID.lookup hwf (filter_kept_eq_some.mp hk).1

/-- C19: at one clock reading, the records stored in the registry after GetAll
are exactly the records it returned, so a second GetAll at the same clock
reading returns the same sequence and leaves the registry as it is. -/
theorem GetAll_leaves_what_it_returns (m : Manager) (now : Time) (hwf : m.KeyIsID) :
    (∀ t : Task, (∃ k : String, (m.GetAll (fun _ => now)).1.Get k = (t, true)) ↔
      t ∈ (m.GetAll (fun _ => now)).2) ∧
    ((m.GetAll (fun _ => now)).1.GetAll (fun _ => now)).2 = (m.GetAll (fun _ => now)).2 ∧
    ((m.GetAll (fun _ => now)).1.GetAll (fun _ => now)).1 = (m.GetAll (fun _ => now)).1 := by
  have hwf' := GetAll_KeyIsID m now hwf
  have hstored : ∀ (k : String) (t : Task),
      (m.GetAll (fun _ => now)).1.tasks.lookup k = some t ↔
        (m.tasks.lookup k = some t ∧ ¬ t.Swept m.expireTime now) := by
    intro k t
    rw [GetAll_lookup m now hwf k]
    exact filter_kept_eq_some
  have hexp : (m.GetAll (fun _ => now)).1.expireTime = m.expireTime := rfl
  refine ⟨fun t => ?_, ?_, ?_⟩
  · rw [mem_GetAll_iff m now hwf t]
    constructor
    · rintro ⟨k, hk⟩
      have h := (hstored k t).mp (lookup_of_Get_true hk)
      have hid : t.ID = k := KeyIsID.lookup hwf h.1
      rw [hid]
      exact h
    · intro h
      exact ⟨t.ID, Get_of_lookup_some ((hstored t.ID t).mpr h)⟩
  · have hmem : ∀ t : Task, t ∈ ((m.GetAll (fun _ => now)).1.GetAll (fun _ => now)).2 ↔
        t ∈ (m.GetAll (fun _ => now)).2 := by
      intro t
      rw [mem_GetAll_iff _ now hwf' t, mem_GetAll_iff m now hwf t, hstored, hexp]
      exact ⟨fun h => h.1, fun h => ⟨h, h.2⟩⟩
    have hp1 := GetAll_pairwise m (fun _ => now) hwf
    have hp2 := GetAll_pairwise (m.GetAll (fun _ => now)).1 (fun _ => now) hwf'
    have hirr : ∀ a b : Task, stringGt a.ID b.ID → a ≠ b := by
      intro a b h hab
      rw [hab] at h
      exact stringGt_asymm _ _ h h
    have hperm : (((m.GetAll (fun _ => now)).1.GetAll (fun _ => now)).2).Perm
        (m.GetAll (fun _ => now)).2 :=
      (List.perm_ext_iff_of_nodup (hp2.imp (hirr _ _)) (hp1.imp (hirr _ _))).mpr hmem
    haveI : IsAntisymm Task (fun a b : Task => stringGt a.ID b.ID) :=
      ⟨fun a b hab hba => absurd hba (stringGt_asymm _ _ hab)⟩
    exact List.eq_of_perm_of_sorted hperm hp2 hp1
  · have hns : ∀ k t, (m.GetAll (fun _ => now)).1.tasks.lookup k = some t →
        ¬ t.Swept (m.GetAll (fun _ => now)).1.expireTime now :=
      fun k t hk => ((hstored k t).mp hk).2
    have h := GetAllLoop_no_sweep (m.GetAll (fun _ => now)).1.expireTime now
      (sortKeysDescending (m.GetAll (fun _ => now)).1.tasks.keys) 0
      (m.GetAll (fun _ => now)).1.tasks [] hns
    show ({ (m.GetAll (fun _ => now)).1 with
      tasks := (Manager.GetAllLoop (m.GetAll (fun _ => now)).1.expireTime (fun _ => now) 0
        (sortKeysDescending (m.GetAll (fun _ => now)).1.tasks.keys)
        (m.GetAll (fun _ => now)).1.tasks []).1 } : Manager) = (m.GetAll (fun _ => now)).1
    rw [h]

theorem GetAll_leaves_what_it_returns_witness :
    c6Registry.KeyIsID ∧
    ((c6Registry.GetAll (fun _ => 10)).1.GetAll (fun _ => 10)).2 =
      (c6Registry.GetAll (fun _ => 10)).2 ∧
    ((c6Registry.GetAll (fun _ => 10)).1.GetAll (fun _ => 10)).1 =
      (c6Registry.GetAll (fun _ => 10)).1 :=
  ⟨by decide, (GetAll_leaves_what_it_returns c6Registry 10 (by decide)).2⟩

/-! ## Lemmas on the steps of an execution -/

theorem GetAllLoop_lookup_sub (e : Duration) (clock : Nat → Time) (ks : List String) :
    ∀ (i : Nat) (store : SyncMap) (acc : List Task) (k : String) (t : Task),
      (Manager.GetAllLoop e clock i ks store acc).1.lookup k = some t →
      store.lookup k = some t := by
  induction ks with
  | nil => intro i store acc k t h; exact h
  | cons key rest ih =>
    intro i store acc k t h
    cases hl : store.lookup key with
    | none =>
      simp only [Manager.GetAllLoop, hl] at h
      exact ih _ _ _ k t h
    | some task =>
      simp only [Manager.GetAllLoop, hl] at h
      split at h
      · have h' := ih _ _ _ k t h
        by_cases hk : k = task.ID
        · rw [hk, AList.lookup_erase] at h'
          exact absurd h' (by simp)
        · rwa [AList.lookup_erase_ne hk] at h'
      · exact ih _ _ _ k t h

theorem GetAll_lookup_sub (m : Manager) (clock : Nat → Time) (k : String) (t : Task)
    (h : (m.GetAll clock).1.tasks.lookup k = some t) : m.tasks.lookup k = some t :=
  GetAllLoop_lookup_sub m.expireTime clock _ 0 m.tasks [] k t h

theorem Delete_lookup_sub (m : Manager) (id k : String) (t : Task)
    (h : (m.Delete id).tasks.lookup k = some t) : m.tasks.lookup k = some t := by
  unfold Manager.Delete at h
  cases hl : m.tasks.lookup id with
  | none => simpa [hl] using h
  | some v =>
    simp only [hl] at h
    by_cases hk : k = id
    · rw [hk, AList.lookup_erase] at h
      exact absurd h (by simp)
    · rwa [AList.lookup_erase_ne hk] at h

theorem Store_lookup (m : Manager) (task : Task) (k : String) :
    (m.Store task).tasks.lookup k = if k = task.ID then some task else m.tasks.lookup k := by
  by_cases hk : k = task.ID
  · subst hk
    simp [Manager.Store]
  · simp [Manager.Store, hk, AList.lookup_insert_ne hk]

theorem KeyIsID.of_sub {m m' : Manager} (hwf : m.KeyIsID)
    (hsub : ∀ k t, m'.tasks.lookup k = some t → m.tasks.lookup k = some t) : m'.KeyIsID :=
  KeyIsID.of_lookup fun k t h => KeyIsID.lookup hwf (hsub k t h)

theorem KeyIsID.Store {m : Manager} (hwf : m.KeyIsID) (task : Task) : (m.Store task).KeyIsID := by
  apply KeyIsID.of_lookup
  intro k t h
  rw [Store_lookup] at h
  split at h
  · rename_i hk
    rw [hk, ← Option.some.inj h]
  · exact KeyIsID.lookup hwf h

theorem KeyIsID.RunComplete {m : Manager} (hwf : m.KeyIsID) (task : Task)
    (err : Option GoError) (now : Time) : (m.RunComplete task err now).KeyIsID := by
  cases hg : m.tasks.lookup task.ID with
  | none =>
    have h : m.RunComplete task err now = m := by
      unfold Manager.RunComplete
      rw [Get_of_lookup_none hg]
    rw [h]
    exact hwf
  | some s =>
    cases err with
    | none =>
      rw [RunComplete_none_eq now (Get_of_lookup_some hg)]
      exact KeyIsID.Store hwf _
    | some e =>
      rw [RunComplete_some_eq e now (Get_of_lookup_some hg)]
      exact KeyIsID.Store hwf _

theorem NewManager_KeyIsID (e : Duration) : (NewManager e).KeyIsID := by
  intro x hx
  simp [NewManager] at hx

/-- What a successful `Run` step does. -/
theorem Sys.step_run {s s' : Sys} {unix : Int} {r : RandRead} {now : Time}
    (h : s.step (Step.run unix r now) = some s') :
    ∃ (id : String) (task : Task), timestampShortUUID unix r = Except.ok id ∧
      task = { ID := id, Status := TaskStatusProcessing, Err := none, ErrorMessage := "",
               Started := now, Finished := zeroTime, Data := GoAny.null,
               manager := some s.self } ∧
      s' = { s with m := s.m.Store task, running := s.running ++ [task],
                    issued := id :: s.issued } := by
  simp only [Sys.step, Manager.Run] at h
  cases hid : timestampShortUUID unix r with
  | error p => simp [hid] at h
  | ok id =>
    simp only [hid, Option.some.injEq] at h
    exact ⟨id, _, rfl, rfl, h.symm⟩

/-- What a successful `tk.Store()` does to the system. -/
theorem Sys.taskStore_eq {s s' : Sys} {tk : Task} (h : s.taskStore tk = some s') :
    tk.manager = some s.self ∧ s' = { s with m := s.m.Store tk } := by
  unfold Sys.taskStore Task.Store at h
  cases hm : tk.manager with
  | none => simp [hm] at h
  | some a =>
    simp only [hm, Sys.heap] at h
    by_cases ha : a = s.self
    · subst ha
      simp at h
      exact ⟨rfl, h.symm⟩
    · simp [ha] at h

theorem Sys.step_selfStore {s s' : Sys} {i : Nat} {data : GoAny}
    (h : s.step (Step.selfStore i data) = some s') :
    ∃ task : Task, s.running[i]? = some task ∧
      s' = { s with m := s.m.Store { task with Data := data } } := by
  simp only [Sys.step] at h
  cases hg : s.running[i]? with
  | none => simp [hg] at h
  | some task =>
    simp only [hg] at h
    exact ⟨task, rfl, (Sys.taskStore_eq h).2⟩

theorem Sys.step_complete {s s' : Sys} {i : Nat} {err : Option GoError} {now : Time}
    (h : s.step (Step.complete i err now) = some s') :
    ∃ task : Task, s.running[i]? = some task ∧
      s' = { s with m := s.m.RunComplete task err now, running := s.running.eraseIdx i } := by
  simp only [Sys.step] at h
  cases hg : s.running[i]? with
  | none => simp [hg] at h
  | some task =>
    simp only [hg, Option.some.injEq] at h
    exact ⟨task, rfl, h.symm⟩

/-- Every step keeps every record under the key equal to its ID. -/
theorem Sys.step_KeyIsID {s s' : Sys} (st : Step) (hwf : s.m.KeyIsID)
    (h : s.step st = some s') : s'.m.KeyIsID := by
  cases st with
  | run unix r now =>
    obtain ⟨id, task, _, _, rfl⟩ := Sys.step_run h
    exact KeyIsID.Store hwf _
  | selfStore i data =>
    obtain ⟨task, _, rfl⟩ := Sys.step_selfStore h
    exact KeyIsID.Store hwf _
  | complete i err now =>
    obtain ⟨task, _, rfl⟩ := Sys.step_complete h
    exact KeyIsID.RunComplete hwf _ _ _
  | getAll clock =>
    simp only [Sys.step, Option.some.injEq] at h
    rw [← h]
    exact KeyIsID.of_sub hwf (GetAll_lookup_sub s.m clock)
  | delete id =>
    simp only [Sys.step, Option.some.injEq] at h
    rw [← h]
    exact KeyIsID.of_sub hwf (Delete_lookup_sub s.m id)
  | store task =>
    simp only [Sys.step, Option.some.injEq] at h
    rw [← h]
    exact KeyIsID.Store hwf _
  | taskStore task =>
    obtain ⟨_, rfl⟩ := Sys.taskStore_eq h
    exact KeyIsID.Store hwf _

/-- A property kept by every step holds after every sequence of steps. -/
theorem Sys.exec_invariant {P : Sys → Prop}
    (hstep : ∀ (s s' : Sys) (st : Step), P s → s.step st = some s' → P s') :
    ∀ (steps : List Step) (s s' : Sys), P s → s.exec steps = some s' → P s' := by
  intro steps
  induction steps with
  | nil =>
    intro s s' hp h
    simp only [Sys.exec, Option.some.injEq] at h
    rw [← h]
    exact hp
  | cons st rest ih =>
    intro s s' hp h
    simp only [Sys.exec] at h
    cases hs : s.step st with
    | none => simp [hs] at h
    | some s1 =>
      simp only [hs] at h
      exact ih s1 s' (hstep s s1 st hp hs) h

/-! ## Key equals ID (C20) -/

/-- C20: in every state reached from the empty registry by Run, Manager.Store,
Task.Store, Delete, GetAll, the work functions' own stores and completion steps,
every record is stored under the key equal to its own ID; so deleting by the ID
of the record loaded under an enumerated key, as the sweep of GetAll does,
removes that key and leaves every other entry as it was. -/
theorem reachable_KeyIsID (self : Nat) (expireTime : Duration) (steps : List Step) (s : Sys)
    (hexec : (Sys.init self expireTime).exec steps = some s) :
    s.m.KeyIsID ∧
    (∀ (k : String) (t : Task), s.m.Get k = (t, true) → t.ID = k) ∧
    (∀ (key : String) (task : Task), s.m.tasks.lookup key = some task →
      (s.m.tasks.erase task.ID).lookup key = none ∧
      ∀ k : String, k ≠ key → (s.m.tasks.erase task.ID).lookup k = s.m.tasks.lookup k) := by
  have hwf : s.m.KeyIsID :=
    Sys.exec_invariant (P := fun s => s.m.KeyIsID)
      (fun s s' st hp h => Sys.step_KeyIsID st hp h) steps _ s
      (NewManager_KeyIsID expireTime) hexec
  refine ⟨hwf, fun k t h => KeyIsID.lookup hwf (lookup_of_Get_true h), ?_⟩
  intro key task hl
  have hid : task.ID = key := KeyIsID.lookup hwf hl
  rw [hid]
  exact ⟨AList.lookup_erase key _, fun k hk => AList.lookup_erase_ne hk⟩

theorem reachable_KeyIsID_witness :
    ∃ s : Sys, (Sys.init 0 4).exec c20Steps = some s ∧ s.m.KeyIsID :=
  (Option.isSome_iff_exists.mp (by decide)).imp
    fun s hs => ⟨hs, (reachable_KeyIsID 0 4 c20Steps s hs).1⟩

/-! ## Lemmas on the life of a task -/

theorem Sys.step_issued_suffix {s s' : Sys} (st : Step) (h : s.step st = some s') :
    s.issued <:+ s'.issued := by
  cases st with
  | run unix r now =>
    obtain ⟨id, task, _, _, rfl⟩ := Sys.step_run h
    exact List.suffix_cons id s.issued
  | selfStore i data =>
    obtain ⟨task, _, rfl⟩ := Sys.step_selfStore h
    exact List.suffix_refl _
  | complete i err now =>
    obtain ⟨task, _, rfl⟩ := Sys.step_complete h
    exact List.suffix_refl _
  | getAll clock =>
    simp only [Sys.step, Option.some.injEq] at h
    rw [← h]
  | delete id =>
    simp only [Sys.step, Option.some.injEq] at h
    rw [← h]
  | store task =>
    simp only [Sys.step, Option.some.injEq] at h
    rw [← h]
  | taskStore task =>
    obtain ⟨_, rfl⟩ := Sys.taskStore_eq h
    exact List.suffix_refl _

theorem Sys.exec_issued_suffix : ∀ (steps : List Step) (s s' : Sys),
    s.exec steps = some s' → s.issued <:+ s'.issued := by
  intro steps
  induction steps with
  | nil =>
    intro s s' h
    simp only [Sys.exec, Option.some.injEq] at h
    rw [h]
  | cons st rest ih =>
    intro s s' h
    simp only [Sys.exec] at h
    cases hs : s.step st with
    | none => simp [hs] at h
    | some s1 =>
      simp only [hs] at h
      exact (Sys.step_issued_suffix st hs).trans (ih s1 s' h)

/-- A property kept by every step of a task's life that issues no id twice
holds after every such sequence of steps. -/
theorem Sys.exec_lifecycle_invariant {P : Sys → Prop}
    (hstep : ∀ (s s' : Sys) (st : Step), P s → st.lifecycle = true → s.step st = some s' →
      s'.issued.Nodup → P s') :
    ∀ (steps : List Step) (s s' : Sys), (∀ st ∈ steps, st.lifecycle = true) → P s →
      s.exec steps = some s' → s'.issued.Nodup → P s' := by
  intro steps
  induction steps with
  | nil =>
    intro s s' _ hp h _
    simp only [Sys.exec, Option.some.injEq] at h
    rw [← h]
    exact hp
  | cons st rest ih =>
    intro s s' hl hp h hn
    simp only [Sys.exec] at h
    cases hs : s.step st with
    | none => simp [hs] at h
    | some s1 =>
      simp only [hs] at h
      have hn1 : s1.issued.Nodup :=
        List.Nodup.sublist (Sys.exec_issued_suffix rest s1 s' h).sublist hn
      exact ih s1 s' (fun x hx => hl x (List.mem_cons_of_mem _ hx))
        (hstep s s1 st hp (hl st (List.mem_cons_self _ _)) hs hn1) h hn

theorem not_mem_map_eraseIdx {l : List Task} :
    ∀ {i : Nat} {a : Task}, (l.map Task.ID).Nodup → l[i]? = some a →
      a.ID ∉ (l.eraseIdx i).map Task.ID := by
  induction l with
  | nil => intro i a _ h; simp at h
  | cons x tl ih =>
    intro i a hn h
    rw [List.map_cons, List.nodup_cons] at hn
    cases i with
    | zero =>
      simp only [List.getElem?_cons_zero, Option.some.injEq] at h
      rw [← h]
      simpa using hn.1
    | succ j =>
      simp only [List.getElem?_cons_succ] at h
      simp only [List.eraseIdx_cons_succ, List.map_cons, List.mem_cons, not_or]
      refine ⟨?_, ih hn.2 h⟩
      intro heq
      apply hn.1
      rw [← heq]
      exact List.mem_map_of_mem _ (List.getElem?_mem h)

theorem not_mem_map_eraseIdx_of_not_mem {l : List Task} {k : String} (i : Nat)
    (h : k ∉ l.map Task.ID) : k ∉ (l.eraseIdx i).map Task.ID :=
  fun hk => h ((List.Sublist.map Task.ID (List.eraseIdx_sublist l i)).subset hk)

/-- What the completion step does to the lookups of the map. -/
theorem RunComplete_lookup (m : Manager) (hwf : m.KeyIsID) (task : Task)
    (err : Option GoError) (now : Time) :
    (m.tasks.lookup task.ID = none ∧ m.RunComplete task err now = m) ∨
    ∃ srec patched : Task, m.tasks.lookup task.ID = some srec ∧
      patched.Terminal ∧ patched.Started = srec.Started ∧ patched.Finished = now ∧
      ∀ k : String, (m.RunComplete task err now).tasks.lookup k =
        if k = task.ID then some patched else m.tasks.lookup k := by
  cases hg : m.tasks.lookup task.ID with
  | none =>
    left
    refine ⟨rfl, ?_⟩
    unfold Manager.RunComplete
    rw [Get_of_lookup_none hg]
  | some srec =>
    right
    have hid : srec.ID = task.ID := KeyIsID.lookup hwf hg
    cases err with
    | none =>
      refine ⟨srec, { srec with Status := TaskStatusComplete, Finished := now }, rfl,
        Or.inl rfl, rfl, rfl, fun k => ?_⟩
      rw [RunComplete_none_eq now (Get_of_lookup_some hg), Store_lookup]
      simp only [hid]
    | some e =>
      refine ⟨srec, { srec with Status := TaskStatusFailed, Finished := now, Err := some e,
                                 ErrorMessage := e.Error }, rfl,
        Or.inr rfl, rfl, rfl, fun k => ?_⟩
      rw [RunComplete_some_eq e now (Get_of_lookup_some hg), Store_lookup]
      simp only [hid]

/-- Each step of a task's life that issues a fresh id keeps the system orderly. -/
theorem Sys.step_Orderly {s s' : Sys} (st : Step) (ho : s.Orderly)
    (hl : st.lifecycle = true) (h : s.step st = some s') (hn : s'.issued.Nodup) :
    s'.Orderly := by
  obtain ⟨hwf, hrun, hnd, hrec⟩ := ho
  cases st with
  | run unix r now =>
    obtain ⟨id, task, _, htask, rfl⟩ := Sys.step_run h
    have hfresh : id ∉ s.issued := (List.nodup_cons.mp hn).1
    have htid : task.ID = id := by rw [htask]
    have htst : task.Status = TaskStatusProcessing := by rw [htask]
    have hnotrun : id ∉ s.running.map Task.ID := by
      intro hmem
      obtain ⟨t, ht, hte⟩ := List.mem_map.mp hmem
      exact hfresh (hte ▸ (hrun t ht).2)
    refine ⟨KeyIsID.Store hwf _, ?_, ?_, ?_⟩
    · intro t ht
      rcases List.mem_append.mp ht with ht | ht
      · exact ⟨(hrun t ht).1, List.mem_cons_of_mem _ (hrun t ht).2⟩
      · rw [List.mem_singleton.mp ht]
        exact ⟨htst, by rw [htid]; exact List.mem_cons_self _ _⟩
    · show ((s.running ++ [task]).map Task.ID).Nodup
      rw [List.map_append, List.map_singleton, htid]
      refine List.Nodup.append hnd (List.nodup_singleton id) ?_
      intro a ha hb
      rw [List.mem_singleton.mp hb] at ha
      exact hnotrun ha
    · intro k rec hk
      have hk' : (s.m.Store task).tasks.lookup k = some rec := hk
      rw [Store_lookup, htid] at hk'
      split at hk'
      · rename_i hkid
        refine ⟨by rw [hkid]; exact List.mem_cons_self _ _, Or.inl ?_⟩
        rw [← Option.some.inj hk']
        exact htst
      · rename_i hkid
        obtain ⟨hki, hor⟩ := hrec k rec hk'
        refine ⟨List.mem_cons_of_mem _ hki, hor.imp (fun x => x) (fun hh => ⟨hh.1, ?_⟩)⟩
        show k ∉ (s.running ++ [task]).map Task.ID
        rw [List.map_append, List.map_singleton, htid, List.mem_append, List.mem_singleton]
        exact fun hh' => hh'.elim hh.2 hkid
  | selfStore i data =>
    obtain ⟨task, hg, rfl⟩ := Sys.step_selfStore h
    have hmem : task ∈ s.running := List.getElem?_mem hg
    refine ⟨KeyIsID.Store hwf _, hrun, hnd, ?_⟩
    intro k rec hk
    have hk' : (s.m.Store { task with Data := data }).tasks.lookup k = some rec := hk
    rw [Store_lookup] at hk'
    split at hk'
    · rename_i hkid
      refine ⟨?_, Or.inl ?_⟩
      · rw [hkid]
        exact (hrun task hmem).2
      · rw [← Option.some.inj hk']
        exact (hrun task hmem).1
    · exact hrec k rec hk'
  | complete i err now =>
    obtain ⟨task, hg, rfl⟩ := Sys.step_complete h
    have hmem : task ∈ s.running := List.getElem?_mem hg
    refine ⟨KeyIsID.RunComplete hwf _ _ _,
      fun t ht => hrun t (List.mem_of_mem_eraseIdx ht),
      List.Nodup.sublist (List.Sublist.map Task.ID (List.eraseIdx_sublist _ _)) hnd, ?_⟩
    intro k rec hk
    have hk' : (s.m.RunComplete task err now).tasks.lookup k = some rec := hk
    show k ∈ s.issued ∧ (rec.Status = TaskStatusProcessing ∨
      (rec.Terminal ∧ k ∉ (s.running.eraseIdx i).map Task.ID))
    rcases RunComplete_lookup s.m hwf task err now with ⟨_, heq⟩ | ⟨srec, patched, hs, hterm, _, _, hlk⟩
    · rw [heq] at hk'
      obtain ⟨hki, hor⟩ := hrec k rec hk'
      exact ⟨hki, hor.imp (fun x => x) (fun hh => ⟨hh.1, not_mem_map_eraseIdx_of_not_mem i hh.2⟩)⟩
    · rw [hlk k] at hk'
      split at hk'
      · rename_i hkid
        refine ⟨?_, Or.inr ⟨?_, ?_⟩⟩
        · rw [hkid]
          exact (hrun task hmem).2
        · rw [← Option.some.inj hk']
          exact hterm
        · rw [hkid]
          exact not_mem_map_eraseIdx hnd hg
      · obtain ⟨hki, hor⟩ := hrec k rec hk'
        exact ⟨hki, hor.imp (fun x => x) (fun hh => ⟨hh.1, not_mem_map_eraseIdx_of_not_mem i hh.2⟩)⟩
  | getAll clock =>
    simp only [Sys.step, Option.some.injEq] at h
    rw [← h]
    exact ⟨KeyIsID.of_sub hwf (GetAll_lookup_sub s.m clock), hrun, hnd,
      fun k rec hk => hrec k rec (GetAll_lookup_sub s.m clock k rec hk)⟩
  | delete id =>
    simp only [Sys.step, Option.some.injEq] at h
    rw [← h]
    exact ⟨KeyIsID.of_sub hwf (Delete_lookup_sub s.m id), hrun, hnd,
      fun k rec hk => hrec k rec (Delete_lookup_sub s.m id k rec hk)⟩
  | store task => simp [Step.lifecycle] at hl
  | taskStore task => simp [Step.lifecycle] at hl

/-- Once the goroutine of the task with id `k` is gone, a step of a task's life
that issues a fresh id can only keep or remove the record under `k`. -/
theorem Sys.step_Done {s s' : Sys} (st : Step) (k : String) (ho : s.Orderly) (hd : s.Done k)
    (hl : st.lifecycle = true) (h : s.step st = some s') (hn : s'.issued.Nodup) :
    s'.Done k ∧ ∀ rec : Task, s'.m.tasks.lookup k = some rec → s.m.tasks.lookup k = some rec := by
  obtain ⟨hwf, hrun, hnd, hrec⟩ := ho
  obtain ⟨hki, hkr⟩ := hd
  have hne : ∀ t ∈ s.running, k ≠ t.ID :=
    fun t ht heq => hkr (heq ▸ List.mem_map_of_mem Task.ID ht)
  cases st with
  | run unix r now =>
    obtain ⟨id, task, _, htask, rfl⟩ := Sys.step_run h
    have hfresh : id ∉ s.issued := (List.nodup_cons.mp hn).1
    have htid : task.ID = id := by rw [htask]
    have hkid : k ≠ id := fun heq => hfresh (heq ▸ hki)
    refine ⟨⟨List.mem_cons_of_mem _ hki, ?_⟩, fun rec hk => ?_⟩
    · show k ∉ (s.running ++ [task]).map Task.ID
      rw [List.map_append, List.map_singleton, htid, List.mem_append, List.mem_singleton]
      exact fun hh => hh.elim hkr hkid
    · have hk' : (s.m.Store task).tasks.lookup k = some rec := hk
      rw [Store_lookup, htid, if_neg hkid] at hk'
      exact hk'
  | selfStore i data =>
    obtain ⟨task, hg, rfl⟩ := Sys.step_selfStore h
    refine ⟨⟨hki, hkr⟩, fun rec hk => ?_⟩
    have hk' : (s.m.Store { task with Data := data }).tasks.lookup k = some rec := hk
    rw [Store_lookup, if_neg (hne task (List.getElem?_mem hg))] at hk'
    exact hk'
  | complete i err now =>
    obtain ⟨task, hg, rfl⟩ := Sys.step_complete h
    refine ⟨⟨hki, not_mem_map_eraseIdx_of_not_mem i hkr⟩, fun rec hk => ?_⟩
    have hk' : (s.m.RunComplete task err now).tasks.lookup k = some rec := hk
    rcases RunComplete_lookup s.m hwf task err now with ⟨_, heq⟩ | ⟨srec, patched, _, _, _, _, hlk⟩
    · rw [heq] at hk'
      exact hk'
    · rw [hlk k, if_neg (hne task (List.getElem?_mem hg))] at hk'
      exact hk'
  | getAll clock =>
    simp only [Sys.step, Option.some.injEq] at h
    rw [← h]
    exact ⟨⟨hki, hkr⟩, fun rec hk => GetAll_lookup_sub s.m clock k rec hk⟩
  | delete id =>
    simp only [Sys.step, Option.some.injEq] at h
    rw [← h]
    exact ⟨⟨hki, hkr⟩, fun rec hk => Delete_lookup_sub s.m id k rec hk⟩
  | store task => simp [Step.lifecycle] at hl
  | taskStore task => simp [Step.lifecycle] at hl

theorem Sys.init_Orderly (self : Nat) (e : Duration) : (Sys.init self e).Orderly := by
  refine ⟨NewManager_KeyIsID e, ?_, ?_, ?_⟩
  · intro t ht
    simp [Sys.init] at ht
  · simp [Sys.init]
  · intro k rec hk
    simp [Sys.init, NewManager] at hk

/-! ## Single terminal transition (C12) -/

/-- C12, as stated, fails, in three ways.  (1) A task is submitted and completes
with Status "complete"; a second Run in the same second draws the same four
bytes, so it generates the same id and stores a "processing" record over the
terminal one.  (2) With one id only: the work function sets Status "failed" on
the snapshot it was handed, stores it and returns nil; the record is "failed"
and then, after the completion step, "complete".  (3) With one id only: the
snapshot is stored again, unchanged, after the completion step; the record is
"complete" and then "processing". -/
theorem c12_status_changes_after_terminal :
    ((∀ st ∈ c12StepsA ++ c12StepsClash, st.lifecycle = true) ∧
      (Sys.init 0 4).exec c12StepsA = some c12Mid ∧
      c12Mid.exec c12StepsClash = some c12Clash ∧
      (c12Mid.m.Get "00000005dead0bef").2 = true ∧
      (c12Mid.m.Get "00000005dead0bef").1.Status = TaskStatusComplete ∧
      (c12Clash.m.Get "00000005dead0bef").2 = true ∧
      (c12Clash.m.Get "00000005dead0bef").1.Status = TaskStatusProcessing) ∧
    (((Sys.init 0 4).exec [Step.run 5 c8Read 1]).map Sys.running = some [c12Snapshot] ∧
      (Sys.init 0 4).exec c12StepsStatus = some c12Stored ∧
      c12Stored.exec c12StepsReturn = some c12Returned ∧
      c12Returned.issued.Nodup ∧
      c12Stored.running = [c12Snapshot] ∧
      (c12Stored.m.Get "00000005dead0bef").2 = true ∧
      (c12Stored.m.Get "00000005dead0bef").1.Status = TaskStatusFailed ∧
      (c12Returned.m.Get "00000005dead0bef").2 = true ∧
      (c12Returned.m.Get "00000005dead0bef").1.Status = TaskStatusComplete) ∧
    (c12Mid.exec c12StepsLate = some c12Late ∧
      c12Late.issued.Nodup ∧
      c12Mid.running = [] ∧
      (c12Mid.m.Get "00000005dead0bef").1.Status = TaskStatusComplete ∧
      (c12Late.m.Get "00000005dead0bef").2 = true ∧
      (c12Late.m.Get "00000005dead0bef").1.Status = TaskStatusProcessing) :=
  ⟨⟨by decide, rfl, rfl, by decide, by decide, by decide, by decide⟩,
   ⟨by decide, rfl, rfl, by decide, by decide, by decide, by decide, by decide, by decide⟩,
   ⟨rfl, by decide, by decide, by decide, by decide, by decide⟩⟩

/-- C12, amended: in every execution built from Run, the work functions' stores,
before they return, of the snapshot they were handed with only Data changed,
completion steps, GetAll and Delete, in which no two Run calls generate the same
id, the record a Run stores under the new id has Status "processing", the record
under the id of a goroutine that has not completed has Status "processing", and
once the record under an id has Status "complete" or "failed" every record found
under that id later has that same status. -/
theorem single_terminal_transition (self : Nat) (expireTime : Duration)
    (steps₁ steps₂ : List Step) (s₁ s₂ : Sys)
    (hl₁ : ∀ st ∈ steps₁, st.lifecycle = true) (hl₂ : ∀ st ∈ steps₂, st.lifecycle = true)
    (h₁ : (Sys.init self expireTime).exec steps₁ = some s₁) (h₂ : s₁.exec steps₂ = some s₂)
    (hfresh : s₂.issued.Nodup) :
    (∀ (unix : Int) (r : RandRead) (now : Time) (s' : Sys),
      s₁.step (Step.run unix r now) = some s' →
      ∃ (id : String) (rec : Task), s'.issued = id :: s₁.issued ∧
        s'.m.Get id = (rec, true) ∧ rec.Status = TaskStatusProcessing) ∧
    (∀ t ∈ s₁.running, ∀ rec : Task, s₁.m.Get t.ID = (rec, true) →
      rec.Status = TaskStatusProcessing) ∧
    (∀ (id : String) (rec₁ rec₂ : Task), s₁.m.Get id = (rec₁, true) → rec₁.Terminal →
      s₂.m.Get id = (rec₂, true) → rec₂.Status = rec₁.Status) := by
  have hn₁ : s₁.issued.Nodup :=
    List.Nodup.sublist (Sys.exec_issued_suffix steps₂ s₁ s₂ h₂).sublist hfresh
  have ho₁ : s₁.Orderly :=
    Sys.exec_lifecycle_invariant (P := Sys.Orderly)
      (fun s s' st hp hl h hn => Sys.step_Orderly st hp hl h hn) steps₁ _ s₁ hl₁
      (Sys.init_Orderly self expireTime) h₁ hn₁
  refine ⟨?_, ?_, ?_⟩
  · intro unix r now s' hs
    obtain ⟨id, task, _, htask, rfl⟩ := Sys.step_run hs
    refine ⟨id, task, rfl, ?_, by rw [htask]⟩
    have htid : task.ID = id := by rw [htask]
    exact Get_Store_at s₁.m task htid
  · intro t ht rec hget
    rcases (ho₁.2.2.2 t.ID rec (lookup_of_Get_true hget)).2 with hp | hp
    · exact hp
    · exact absurd (List.mem_map_of_mem Task.ID ht) hp.2
  · intro id rec₁ rec₂ hg₁ hterm hg₂
    have hl := lookup_of_Get_true hg₁
    have hdone : s₁.Done id := by
      obtain ⟨hki, hor⟩ := ho₁.2.2.2 id rec₁ hl
      rcases hor with hp | hp
      · exact absurd hp (Terminal.not_processing hterm)
      · exact ⟨hki, hp.2⟩
    have hfrozen : s₂.Orderly ∧ s₂.Done id ∧
        ∀ rec : Task, s₂.m.tasks.lookup id = some rec → s₁.m.tasks.lookup id = some rec :=
      Sys.exec_lifecycle_invariant
        (P := fun s => s.Orderly ∧ s.Done id ∧
          ∀ rec : Task, s.m.tasks.lookup id = some rec → s₁.m.tasks.lookup id = some rec)
        (fun s s' st hp hl h hn =>
          ⟨Sys.step_Orderly st hp.1 hl h hn, (Sys.step_Done st id hp.1 hp.2.1 hl h hn).1,
            fun rec hrec =>
              hp.2.2 rec ((Sys.step_Done st id hp.1 hp.2.1 hl h hn).2 rec hrec)⟩)
        steps₂ s₁ s₂ hl₂ ⟨ho₁, hdone, fun _ hrec => hrec⟩ h₂ hfresh
    have h := hfrozen.2.2 rec₂ (lookup_of_Get_true hg₂)
    rw [hl] at h
    rw [Option.some.inj h]

theorem single_terminal_transition_witness :
    (∀ st ∈ c12StepsA, st.lifecycle = true) ∧ (∀ st ∈ c12StepsB, st.lifecycle = true) ∧
    (Sys.init 0 4).exec c12StepsA = some c12Mid ∧ c12Mid.exec c12StepsB = some c12End ∧
    c12End.issued.Nodup ∧
    (∀ (id : String) (rec₁ rec₂ : Task), c12Mid.m.Get id = (rec₁, true) → rec₁.Terminal →
      c12End.m.Get id = (rec₂, true) → rec₂.Status = rec₁.Status) :=
  ⟨by decide, by decide, rfl, rfl, by decide,
   (single_terminal_transition 0 4 c12StepsA c12StepsB c12Mid c12End (by decide) (by decide)
      rfl rfl (by decide)).2.2⟩

/-! ## Lifecycle invariant (C13) -/

theorem Sys.Shaped.mono {s : Sys} {b b' : Time} (h : s.Shaped b) (hb : b ≤ b') :
    s.Shaped b' :=
  ⟨fun k rec hk => ⟨(h.1 k rec hk).1, le_trans (h.1 k rec hk).2 hb⟩,
   fun t ht => ⟨(h.2 t ht).1, (h.2 t ht).2.1, le_trans (h.2 t ht).2.2 hb⟩⟩

/-- Each step of a task's life keeps the records well shaped, when the clock
readings it writes are not before the earlier ones. -/
theorem Sys.step_Shaped {s s' : Sys} (st : Step) {b : Time} (tail : List Time)
    (hwf : s.m.KeyIsID) (hsh : s.Shaped b) (hl : st.lifecycle = true)
    (h : s.step st = some s') (hc : List.Chain (· ≤ ·) b (st.stamps ++ tail)) :
    ∃ b' : Time, s'.Shaped b' ∧ List.Chain (· ≤ ·) b' tail := by
  cases st with
  | run unix r now =>
    obtain ⟨id, task, _, htask, rfl⟩ := Sys.step_run h
    have hc' : List.Chain (· ≤ ·) b (now :: tail) := hc
    rw [List.chain_cons] at hc'
    have hsh' := hsh.mono hc'.1
    refine ⟨now, ⟨?_, ?_⟩, hc'.2⟩
    · intro k rec hk
      have hk' : (s.m.Store task).tasks.lookup k = some rec := hk
      rw [Store_lookup] at hk'
      split at hk'
      · rw [← Option.some.inj hk', htask]
        exact ⟨Or.inl ⟨rfl, rfl⟩, le_refl now⟩
      · exact hsh'.1 k rec hk'
    · intro t ht
      rcases List.mem_append.mp ht with ht | ht
      · exact hsh'.2 t ht
      · rw [List.mem_singleton.mp ht, htask]
        exact ⟨rfl, rfl, le_refl now⟩
  | selfStore i data =>
    obtain ⟨task, hg, rfl⟩ := Sys.step_selfStore h
    have hrun := hsh.2 task (List.getElem?_mem hg)
    refine ⟨b, ⟨?_, hsh.2⟩, hc⟩
    intro k rec hk
    have hk' : (s.m.Store { task with Data := data }).tasks.lookup k = some rec := hk
    rw [Store_lookup] at hk'
    split at hk'
    · rw [← Option.some.inj hk']
      exact ⟨Or.inl ⟨hrun.1, hrun.2.1⟩, hrun.2.2⟩
    · exact hsh.1 k rec hk'
  | complete i err now =>
    obtain ⟨task, hg, rfl⟩ := Sys.step_complete h
    have hc' : List.Chain (· ≤ ·) b (now :: tail) := hc
    rw [List.chain_cons] at hc'
    have hsh' := hsh.mono hc'.1
    refine ⟨now, ⟨?_, fun t ht => hsh'.2 t (List.mem_of_mem_eraseIdx ht)⟩, hc'.2⟩
    intro k rec hk
    have hk' : (s.m.RunComplete task err now).tasks.lookup k = some rec := hk
    rcases RunComplete_lookup s.m hwf task err now with
      ⟨_, heq⟩ | ⟨srec, patched, hs, hterm, hstart, hfin, hlk⟩
    · rw [heq] at hk'
      exact hsh'.1 k rec hk'
    · rw [hlk k] at hk'
      split at hk'
      · have hle : patched.Started ≤ now := by
          rw [hstart]
          exact (hsh'.1 task.ID srec hs).2
        rw [← Option.some.inj hk']
        exact ⟨Or.inr ⟨hterm, by rw [hfin]; exact hle⟩, hle⟩
      · exact hsh'.1 k rec hk'
  | getAll clock =>
    simp only [Sys.step, Option.some.injEq] at h
    rw [← h]
    exact ⟨b, ⟨fun k rec hk => hsh.1 k rec (GetAll_lookup_sub s.m clock k rec hk), hsh.2⟩, hc⟩
  | delete id =>
    simp only [Sys.step, Option.some.injEq] at h
    rw [← h]
    exact ⟨b, ⟨fun k rec hk => hsh.1 k rec (Delete_lookup_sub s.m id k rec hk), hsh.2⟩, hc⟩
  | store task => simp [Step.lifecycle] at hl
  | taskStore task => simp [Step.lifecycle] at hl

theorem Sys.exec_Shaped : ∀ (steps : List Step) (s s' : Sys) (b : Time),
    s.m.KeyIsID → s.Shaped b → (∀ st ∈ steps, st.lifecycle = true) →
    List.Chain (· ≤ ·) b (stampsOf steps) → s.exec steps = some s' →
    ∃ b' : Time, s'.Shaped b' := by
  intro steps
  induction steps with
  | nil =>
    intro s s' b _ hsh _ _ h
    simp only [Sys.exec, Option.some.injEq] at h
    rw [← h]
    exact ⟨b, hsh⟩
  | cons st rest ih =>
    intro s s' b hwf hsh hl hc h
    simp only [Sys.exec] at h
    cases hs : s.step st with
    | none => simp [hs] at h
    | some s1 =>
      simp only [hs] at h
      obtain ⟨b1, hsh1, hc1⟩ := Sys.step_Shaped st (stampsOf rest) hwf hsh
        (hl st (List.mem_cons_self _ _)) hs hc
      exact ih s1 s' b1 (Sys.step_KeyIsID st hwf hs) hsh1
        (fun x hx => hl x (List.mem_cons_of_mem _ hx)) hc1 h

theorem Sys.init_Shaped (self : Nat) (e : Duration) (b : Time) : (Sys.init self e).Shaped b := by
  refine ⟨?_, ?_⟩
  · intro k rec hk
    simp [Sys.init, NewManager] at hk
  · intro t ht
    simp [Sys.init] at ht

/-- C13: in every registry state reached from the empty registry by Run, the
work functions' stores of their snapshot with only Data changed, completion
steps, GetAll and Delete, the clock readings written into records never going
back, every stored record either has Status "processing" and zero Finished, or
has a terminal Status with Finished >= Started; no stored record has Finished set
while its Status is "processing". -/
theorem lifecycle_shape (self : Nat) (expireTime : Duration) (steps : List Step) (s : Sys)
    (hl : ∀ st ∈ steps, st.lifecycle = true)
    (hclock : List.Chain' (· ≤ ·) (stampsOf steps))
    (hexec : (Sys.init self expireTime).exec steps = some s) :
    ∀ (k : String) (rec : Task), s.m.Get k = (rec, true) →
      ((rec.Status = TaskStatusProcessing ∧ rec.Finished = zeroTime) ∨
       ((rec.Status = TaskStatusComplete ∨ rec.Status = TaskStatusFailed) ∧
         rec.Finished ≥ rec.Started)) ∧
      (rec.Finished ≠ zeroTime → rec.Status ≠ TaskStatusProcessing) := by
  have hb : ∃ b : Time, List.Chain (· ≤ ·) b (stampsOf steps) := by
    cases hst : stampsOf steps with
    | nil => exact ⟨0, List.Chain.nil⟩
    | cons x xs =>
      rw [hst] at hclock
      exact ⟨x, List.Chain.cons (le_refl x) hclock⟩
  obtain ⟨b, hb⟩ := hb
  obtain ⟨b', hsh⟩ := Sys.exec_Shaped steps _ s b (NewManager_KeyIsID expireTime)
    (Sys.init_Shaped self expireTime b) hl hb hexec
  intro k rec hget
  have hw : rec.WellShaped := (hsh.1 k rec (lookup_of_Get_true hget)).1
  refine ⟨hw, fun hfin hp => ?_⟩
  rcases hw with hw | hw
  · exact hfin hw.2
  · exact Terminal.not_processing hw.1 hp

theorem lifecycle_shape_witness :
    (∀ st ∈ c13Steps, st.lifecycle = true) ∧
    List.Chain' (· ≤ ·) (stampsOf c13Steps) ∧
    (Sys.init 0 4).exec c13Steps = some c13End ∧
    ∀ (k : String) (rec : Task), c13End.m.Get k = (rec, true) →
      ((rec.Status = TaskStatusProcessing ∧ rec.Finished = zeroTime) ∨
       ((rec.Status = TaskStatusComplete ∨ rec.Status = TaskStatusFailed) ∧
         rec.Finished ≥ rec.Started)) ∧
      (rec.Finished ≠ zeroTime → rec.Status ≠ TaskStatusProcessing) :=
  ⟨by decide, by simp [c13Steps, stampsOf, Step.stamps], rfl,
   lifecycle_shape 0 4 c13Steps c13End (by decide)
     (by simp [c13Steps, stampsOf, Step.stamps]) rfl⟩

/-! ## Three submissions (C14) -/

/-- Under any clock, what `GetAll` returns is stored, and every stored
processing record is returned. -/
theorem GetAll_any_clock_mem (m : Manager) (clock : Nat → Time) (hwf : m.KeyIsID) :
    (∀ t ∈ (m.GetAll clock).2, m.tasks.lookup t.ID = some t) ∧
    (∀ (k : String) (t : Task), m.tasks.lookup k = some t →
      t.Status = TaskStatusProcessing → t ∈ (m.GetAll clock).2) := by
  obtain ⟨kept, h2, _, hst, hp⟩ := GetAllLoop_any_clock m.expireTime clock
    (sortKeysDescending m.tasks.keys) 0 m.tasks [] (fun _ _ h => KeyIsID.lookup hwf h)
  have hres : (m.GetAll clock).2 = kept := by
    have h : (m.GetAll clock).2 = [] ++ kept := h2
    rw [h, List.nil_append]
  rw [hres]
  exact ⟨hst, fun k t hk hproc => (hp k t hk hproc).2 (mem_sortKeysDescending_of_lookup hk)⟩

/-- The state after three calls of `Run` from the empty registry. -/
theorem Sys.exec_three_runs {self : Nat} {e : Duration} {u₁ u₂ u₃ : Int}
    {r₁ r₂ r₃ : RandRead} {n₁ n₂ n₃ : Time} {s : Sys}
    (h : (Sys.init self e).exec [Step.run u₁ r₁ n₁, Step.run u₂ r₂ n₂, Step.run u₃ r₃ n₃]
      = some s) :
    ∃ t₁ t₂ t₃ : Task,
      t₁.Status = TaskStatusProcessing ∧ t₂.Status = TaskStatusProcessing ∧
      t₃.Status = TaskStatusProcessing ∧
      s.m = (((NewManager e).Store t₁).Store t₂).Store t₃ ∧
      s.running = [t₁, t₂, t₃] ∧ s.issued = [t₃.ID, t₂.ID, t₁.ID] := by
  simp only [Sys.exec] at h
  cases h1 : (Sys.init self e).step (Step.run u₁ r₁ n₁) with
  | none => simp [h1] at h
  | some s1 =>
    simp only [h1] at h
    cases h2 : s1.step (Step.run u₂ r₂ n₂) with
    | none => simp [h2] at h
    | some s2 =>
      simp only [h2] at h
      cases h3 : s2.step (Step.run u₃ r₃ n₃) with
      | none => simp [h3] at h
      | some s3 =>
        simp only [h3, Option.some.injEq] at h
        obtain ⟨id1, t1, _, ht1, rfl⟩ := Sys.step_run h1
        obtain ⟨id2, t2, _, ht2, rfl⟩ := Sys.step_run h2
        obtain ⟨id3, t3, _, ht3, rfl⟩ := Sys.step_run h3
        rw [← h]
        refine ⟨t1, t2, t3, by rw [ht1], by rw [ht2], by rw [ht3], rfl, rfl, ?_⟩
        have e1 : t1.ID = id1 := by rw [ht1]
        have e2 : t2.ID = id2 := by rw [ht2]
        have e3 : t3.ID = id3 := by rw [ht3]
        rw [e1, e2, e3]
        rfl

/-- C14, as stated, fails: three Run calls in the same second whose entropy
reads return the same four bytes generate one id three times, and GetAll right
after them returns one record, not three. -/
theorem c14_same_id_one_entry :
    (Sys.init 0 1).exec c14StepsClash = some c14Clash ∧
    (c14Clash.m.GetAll (fun _ => 3)).2.length = 1 :=
  ⟨rfl, by decide⟩

/-- C14, amended: starting from an empty registry, after three Run calls that
generate three different ids and before any of their completion steps, GetAll
returns exactly 3 records, every one with Status "processing": the three
snapshots handed to the work functions, in some order. -/
theorem three_submissions (self : Nat) (expireTime : Duration) (u₁ u₂ u₃ : Int)
    (r₁ r₂ r₃ : RandRead) (n₁ n₂ n₃ : Time) (clock : Nat → Time) (s : Sys)
    (hexec : (Sys.init self expireTime).exec
      [Step.run u₁ r₁ n₁, Step.run u₂ r₂ n₂, Step.run u₃ r₃ n₃] = some s)
    (hfresh : s.issued.Nodup) :
    (s.m.GetAll clock).2.length = 3 ∧
    (∀ t ∈ (s.m.GetAll clock).2, t.Status = TaskStatusProcessing) ∧
    (s.m.GetAll clock).2.Perm s.running := by
  obtain ⟨t₁, t₂, t₃, hp₁, hp₂, hp₃, hm, hrun, hiss⟩ := Sys.exec_three_runs hexec
  rw [hiss] at hfresh
  have h32 : t₃.ID ≠ t₂.ID := by
    intro h; simp [h] at hfresh
  have h31 : t₃.ID ≠ t₁.ID := by
    intro h; simp [h] at hfresh
  have h21 : t₂.ID ≠ t₁.ID := by
    intro h; simp [h] at hfresh
  have hwf : s.m.KeyIsID := by
    rw [hm]
    exact KeyIsID.Store (KeyIsID.Store (KeyIsID.Store (NewManager_KeyIsID expireTime) _) _) _
  have hlk : ∀ k : String, s.m.tasks.lookup k =
      if k = t₃.ID then some t₃ else if k = t₂.ID then some t₂
      else if k = t₁.ID then some t₁ else none := by
    intro k
    rw [hm, Store_lookup, Store_lookup, Store_lookup]
    rfl
  obtain ⟨hsub, hall⟩ := GetAll_any_clock_mem s.m clock hwf
  have hmem : ∀ t : Task, t ∈ (s.m.GetAll clock).2 ↔ t ∈ [t₁, t₂, t₃] := by
    intro t
    constructor
    · intro ht
      have h := hsub t ht
      rw [hlk] at h
      split at h
      · simp [Option.some.inj h]
      · split at h
        · simp [Option.some.inj h]
        · split at h
          · simp [Option.some.inj h]
          · exact absurd h (by simp)
    · intro ht
      simp only [List.mem_cons, List.mem_singleton, List.not_mem_nil, or_false] at ht
      rcases ht with rfl | rfl | rfl
      · refine hall t.ID t ?_ hp₁
        rw [hlk, if_neg (Ne.symm h31), if_neg (Ne.symm h21), if_pos rfl]
      · refine hall t.ID t ?_ hp₂
        rw [hlk, if_neg (Ne.symm h32), if_pos rfl]
      · refine hall t.ID t ?_ hp₃
        rw [hlk, if_pos rfl]
  have hnd : (s.m.GetAll clock).2.Nodup := by
    refine (GetAll_pairwise s.m clock hwf).imp ?_
    intro a b h hab
    rw [hab] at h
    exact stringGt_asymm _ _ h h
  have hnd3 : [t₁, t₂, t₃].Nodup := by
    have e21 : t₂ ≠ t₁ := fun h => h21 (by rw [h])
    have e31 : t₃ ≠ t₁ := fun h => h31 (by rw [h])
    have e32 : t₃ ≠ t₂ := fun h => h32 (by rw [h])
    simp [Ne.symm e21, Ne.symm e31, Ne.symm e32]
  have hperm : (s.m.GetAll clock).2.Perm [t₁, t₂, t₃] :=
    (List.perm_ext_iff_of_nodup hnd hnd3).mpr hmem
  refine ⟨by rw [hperm.length_eq]; rfl, ?_, by rw [hrun]; exact hperm⟩
  intro t ht
  have ht' := (hmem t).mp ht
  simp only [List.mem_cons, List.mem_singleton, List.not_mem_nil, or_false] at ht'
  rcases ht' with rfl | rfl | rfl
  · exact hp₁
  · exact hp₂
  · exact hp₃

theorem three_submissions_witness :
    (Sys.init 0 1).exec c14Steps = some c14End ∧ c14End.issued.Nodup ∧
    (c14End.m.GetAll (fun _ => 3)).2.length = 3 ∧
    (∀ t ∈ (c14End.m.GetAll (fun _ => 3)).2, t.Status = TaskStatusProcessing) :=
  ⟨rfl, by decide,
   (three_submissions 0 1 5 6 7 c8Read c8Read c8Read 1 2 3 (fun _ => 3) c14End rfl
      (by decide)).1,
   (three_submissions 0 1 5 6 7 c8Read c8Read c8Read 1 2 3 (fun _ => 3) c14End rfl
      (by decide)).2.1⟩

end Memtask
